import Mathlib

/-!
# regent-mlmc: the 1D diffusion solvers `diffusion_1d` and `ellip_1d`

A shallow embedding of `src/diffusion.c` and `src/ellip.c` in exact arithmetic.

* Numbers live in a field `α` of characteristic zero (`ℚ` to run the code, `ℝ` for
  the cosine expansion).  A division is the only operation that can go wrong: its
  result is undefined on a zero divisor (where the floating-point program produces
  an infinity or a NaN, which then spreads), so every division of the source is a
  `sdiv` and every function that divides returns an `Option`; `none` is "no number",
  not an error code: the source has none.
* A C array is a function `Nat → α`; a store `a[i] = v` is `Function.update a i v`.
  A freshly declared array is taken to hold `0`; no statement below reads an entry
  before the source has written it.
* A `for` loop is `forUp`, `loopUp` (ascending) or `forDown` (descending) over an
  explicit state.
* Indices are natural numbers and the `int` counters of the back substitutions are
  taken as exact.  The embedding follows the source for `num_grid_points ≥ 2`.  Below
  that the source indexes its arrays out of bounds (`num_grid_points - 1`, `n - 1` and
  `num_grid_points - 2` wrap as `size_t`), which has no defined behaviour; the model
  has `none` there, by convention and not as a statement about the program.
* The `printf` calls of `ellip_1d` are left out.
* `cos` and `atan(1.0)` come from the C library: they are the parameters `cosf` and
  `atan1`.  The macro `PI` is expanded textually as `4.0*atan(1.0)`, unparenthesised,
  exactly where the source uses it.

The file has three parts: the embedding and the recurrences of the specification,
the lemmas that put each loop in closed form, and the claims.
-/

namespace Mlmc

section Embedding

variable {α : Type} [Field α] [DecidableEq α]

/-- Exact division `x / y`: undefined when the divisor is zero. -/
def sdiv (x y : α) : Option α :=
  if y = 0 then none else some (x / y)

/-- The loop `for (i = lo; i < lo + cnt; i++) s = body i s`, stopping at the first
undefined step. -/
def forUp {σ : Type} (body : Nat → σ → Option σ) (lo : Nat) : Nat → σ → Option σ
  | 0, s => some s
  | cnt + 1, s => (forUp body lo cnt s).bind (body (lo + cnt))

/-- The loop `for (i = lo; i < lo + cnt; i++) s = body i s` whose body cannot fail. -/
def loopUp {σ : Type} (body : Nat → σ → σ) (lo : Nat) : Nat → σ → σ
  | 0, s => s
  | cnt + 1, s => body (lo + cnt) (loopUp body lo cnt s)

/-- The loop `for (i = n; i-- > 0;) s = body i s`: it runs `i = n-1, n-2, ..., 0`. -/
def forDown {σ : Type} (body : Nat → σ → σ) : Nat → σ → σ
  | 0, s => s
  | n + 1, s => forDown body n (body n s)

/-- The four arrays `a`, `b`, `c`, `d` of a tridiagonal system. -/
structure Tridiag (α : Type) where
  a : Nat → α
  b : Nat → α
  c : Nat → α
  d : Nat → α

/-- `domain_length = 1.0`. -/
def domain_length : α := 1
/-- `u_0 = 0.0`, the left boundary value. -/
def u_0 : α := 0
/-- `u_1 = 0.0`, the right boundary value. -/
def u_1 : α := 0
/-- `sigma = 1.0`, the variability of the diffusivity. -/
def sigma : α := 1
/-- `f = -10.0` in `diffusion_1d`. -/
def f_diffusion : α := -10
/-- `f = -1.0` in `ellip_1d`. -/
def f_ellip : α := -1

/-- `grid_spacing = domain_length/(num_grid_points-1)`. -/
def grid_spacing (N : Nat) : Option α :=
  sdiv domain_length (((N - 1 : Nat) : α))

/-- The grid loop: `x_points[i] = i*grid_spacing` for `i < num_grid_points`, the spacing
being recomputed in every iteration. -/
def x_points (N : Nat) : Option (Nat → α) :=
  forUp (fun i x => do
    let h ← grid_spacing N
    pure (Function.update x i ((i : α) * h))) 0 N (fun _ => 0)

/-- The forcing loop: `f_terms[i] = f` for `i < num_grid_points`. -/
def f_terms (N : Nat) (f : α) : Nat → α :=
  loopUp (fun i ft => Function.update ft i f) 0 N (fun _ => 0)

/-- One pass of the inner loop of the field loop:
`k_coefficients[i] += sigma*((1.0/((k+1.0)*(k+1.0)*PI*PI))*cos(2.0*PI*(k+1.0)*x_points[i])*xi_uncertainties[k])`
with `PI` expanded to `4.0*atan(1.0)`. -/
def k_term (cosf : α → α) (atan1 : α) (xi : Nat → α) (xv : α) (k : Nat) (acc : α) :
    Option α := do
  let q ← sdiv 1 (((k : α) + 1) * ((k : α) + 1) * 4 * atan1 * 4 * atan1)
  pure (acc + sigma * (q * cosf (2 * 4 * atan1 * ((k : α) + 1) * xv) * xi k))

/-- The field loop: `k_coefficients[i] = 1.0` followed by the `num_uncertainties`
cosine modes. -/
def k_coefficients (cosf : α → α) (atan1 : α) (N M : Nat) (xi x : Nat → α) :
    Option (Nat → α) :=
  forUp (fun i kc => do
    let v ← forUp (k_term cosf atan1 xi (x i)) 0 M 1
    pure (Function.update kc i v)) 0 N (fun _ => 0)

/-- The two boundary rows, written after the interior loop:
`a[0] = 0; b[0] = 1.0; c[0] = 0.0; d[0] = u_0;` and the same at `num_grid_points-1`
with `u_1`. -/
def set_boundary (N : Nat) (s : Tridiag α) : Tridiag α :=
  let s0 : Tridiag α :=
    { a := Function.update s.a 0 0, b := Function.update s.b 0 1,
      c := Function.update s.c 0 0, d := Function.update s.d 0 u_0 }
  { a := Function.update s0.a (N - 1) 0, b := Function.update s0.b (N - 1) 1,
    c := Function.update s0.c (N - 1) 0, d := Function.update s0.d (N - 1) u_1 }

/-- The interior row `i` of `diffusion_1d`: the control-volume width is in `d[i]`. -/
def row_diffusion (x k f : Nat → α) (i : Nat) (s : Tridiag α) : Option (Tridiag α) := do
  let ai ← sdiv (0.5 * (k i + k (i - 1))) (x i - x (i - 1))
  let b1 ← sdiv ((-1) * 0.5 * (k (i + 1) + k i)) (x (i + 1) - x i)
  let b2 ← sdiv ((-1) * 0.5 * (k i + k (i - 1))) (x i - x (i - 1))
  let ci ← sdiv (0.5 * (k (i + 1) + k i)) (x (i + 1) - x i)
  pure { a := Function.update s.a i ai, b := Function.update s.b i (b1 + b2),
         c := Function.update s.c i ci,
         d := Function.update s.d i (f i * 0.5 * (x (i + 1) - x (i - 1))) }

/-- The interior row `i` of `ellip_1d`: `a[i]`, `b[i]`, `c[i]` are divided by the
control-volume width `0.5*(x[i+1]-x[i-1])` and `d[i] = f_terms[i]`. -/
def row_ellip (x k f : Nat → α) (i : Nat) (s : Tridiag α) : Option (Tridiag α) := do
  let a1 ← sdiv (0.5 * (k i + k (i - 1))) (x i - x (i - 1))
  let ai ← sdiv a1 (0.5 * (x (i + 1) - x (i - 1)))
  let b1 ← sdiv ((-1) * 0.5 * (k (i + 1) + k i)) (x (i + 1) - x i)
  let b2 ← sdiv ((-1) * 0.5 * (k i + k (i - 1))) (x i - x (i - 1))
  let bi ← sdiv (b1 + b2) (0.5 * (x (i + 1) - x (i - 1)))
  let c1 ← sdiv (0.5 * (k (i + 1) + k i)) (x (i + 1) - x i)
  let ci ← sdiv c1 (0.5 * (x (i + 1) - x (i - 1)))
  pure { a := Function.update s.a i ai, b := Function.update s.b i bi,
         c := Function.update s.c i ci, d := Function.update s.d i (f i) }

/-- The arrays `a`, `b`, `c`, `d` as declared, before any row is written. -/
def blank : Tridiag α :=
  { a := fun _ => 0, b := fun _ => 0, c := fun _ => 0, d := fun _ => 0 }

/-- Assembly in `diffusion_1d`: the interior loop `i = 1 .. num_grid_points-2`, then
the boundary rows. -/
def assemble_diffusion (N : Nat) (x k f : Nat → α) : Option (Tridiag α) :=
  (forUp (row_diffusion x k f) 1 (N - 2) blank).map (set_boundary N)

/-- Assembly in `ellip_1d`: the interior loop `i = 1 .. num_grid_points-2`, then the
boundary rows. -/
def assemble_ellip (N : Nat) (x k f : Nat → α) : Option (Tridiag α) :=
  (forUp (row_ellip x k f) 1 (N - 2) blank).map (set_boundary N)

/-- One step of the forward sweep of `diffusion_1d`, in place on `c` and `d`:
`c[i] = c[i]/(b[i] - a[i]*c[i-1]); d[i] = (d[i] - a[i]*d[i-1]) / (b[i] - a[i]*c[i-1]);`. -/
def sweep_inplace (a b : Nat → α) (i : Nat) (cd : (Nat → α) × (Nat → α)) :
    Option ((Nat → α) × (Nat → α)) := do
  let ci ← sdiv (cd.1 i) (b i - a i * cd.1 (i - 1))
  let c := Function.update cd.1 i ci
  let di ← sdiv (cd.2 i - a i * cd.2 (i - 1)) (b i - a i * c (i - 1))
  pure (c, Function.update cd.2 i di)

/-- The TDMA section of `diffusion_1d` (`n = num_grid_points-1`): the forward sweep
overwrites `c` and `d`, the back substitution `d[i] -= c[i]*d[i+1]` overwrites `d`,
which is the solution.  It follows the source for `num_grid_points ≥ 2`: with one
grid point the index `n-1` of `d[n-1]`, `c[n-1]` wraps in the source and is `0` here. -/
def tdma_inplace (N : Nat) (s : Tridiag α) : Option (Nat → α) := do
  let n := N - 1
  let c0 ← sdiv (s.c 0) (s.b 0)
  let c := Function.update s.c 0 c0
  let d0 ← sdiv (s.d 0) (s.b 0)
  let d := Function.update s.d 0 d0
  let cd ← forUp (sweep_inplace s.a s.b) 1 (n - 1) (c, d)
  let dn ← sdiv (cd.2 n - s.a n * cd.2 (n - 1)) (s.b n - s.a n * cd.1 (n - 1))
  let d := Function.update cd.2 n dn
  pure (forDown (fun i d => Function.update d i (d i - cd.1 i * d (i + 1))) n d)

/-- One step of the forward sweep of `ellip_1d`, into `c_star` and `d_star`:
`m = 1.0/(b[i]-a[i]*c_star[i-1]); c_star[i] = c[i]*m; d_star[i] = (d[i]-a[i]*d_star[i-1])*m;`. -/
def sweep_star (s : Tridiag α) (i : Nat) (cd : (Nat → α) × (Nat → α)) :
    Option ((Nat → α) × (Nat → α)) := do
  let m ← sdiv 1 (s.b i - s.a i * cd.1 (i - 1))
  let c_star := Function.update cd.1 i (s.c i * m)
  pure (c_star, Function.update cd.2 i ((s.d i - s.a i * cd.2 (i - 1)) * m))

/-- The TDMA section of `ellip_1d`: forward sweep into `c_star`, `d_star`, back
substitution into `u_unknowns`.  It follows the source for `num_grid_points ≥ 2`: with
one grid point the index `num_grid_points-2` wraps in the source and is `0` here. -/
def tdma_star (N : Nat) (s : Tridiag α) : Option (Nat → α) := do
  let c0 ← sdiv (s.c 0) (s.b 0)
  let c_star := Function.update (fun _ => (0 : α)) 0 c0
  let d0 ← sdiv (s.d 0) (s.b 0)
  let d_star := Function.update (fun _ => (0 : α)) 0 d0
  let cd ← forUp (sweep_star s) 1 (N - 2) (c_star, d_star)
  let m ← sdiv 1 (s.b (N - 1) - s.a (N - 1) * cd.1 (N - 2))
  let d_star := Function.update cd.2 (N - 1) ((s.d (N - 1) - s.a (N - 1) * cd.2 (N - 2)) * m)
  let u := Function.update (fun _ => (0 : α)) (N - 1) (d_star (N - 1))
  pure (forDown (fun i u => Function.update u i (d_star i - cd.1 i * u (i + 1))) (N - 1) u)

/-- The system of `diffusion_1d` as handed to its TDMA section: grid, forcing, field
and assembly, as in the source for `num_grid_points ≥ 2`.  The test for
`num_grid_points = 0` is not in the source: it stands for the arrays of length zero,
and for one grid point the result is `none` through the grid spacing; both are
conventions of the model. -/
def diffusion_system (cosf : α → α) (atan1 : α) (N M : Nat) (xi : Nat → α) :
    Option (Tridiag α) :=
  if N = 0 then none else do
    let x ← x_points N
    let f := f_terms N f_diffusion
    let k ← k_coefficients cosf atan1 N M xi x
    assemble_diffusion N x k f

/-- The solution vector of `diffusion_1d`: the array `d` after the in-place TDMA. -/
def diffusion_solution (cosf : α → α) (atan1 : α) (N M : Nat) (xi : Nat → α) :
    Option (Nat → α) := do
  let s ← diffusion_system cosf atan1 N M xi
  tdma_inplace N s

/-- The function `diffusion_1d`: `return d[num_grid_points/2]`. -/
def diffusion_1d (cosf : α → α) (atan1 : α) (N M : Nat) (xi : Nat → α) : Option α :=
  (diffusion_solution cosf atan1 N M xi).map (fun d => d (N / 2))

/-- The system of `ellip_1d` as handed to its TDMA section, as in the source for
`num_grid_points ≥ 2`; below that the same conventions as for `diffusion_system`. -/
def ellip_system (cosf : α → α) (atan1 : α) (N M : Nat) (xi : Nat → α) :
    Option (Tridiag α) :=
  if N = 0 then none else do
    let x ← x_points N
    let f := f_terms N f_ellip
    let k ← k_coefficients cosf atan1 N M xi x
    assemble_ellip N x k f

/-- The solution vector `u_unknowns` of `ellip_1d`. -/
def ellip_solution (cosf : α → α) (atan1 : α) (N M : Nat) (xi : Nat → α) :
    Option (Nat → α) := do
  let s ← ellip_system cosf atan1 N M xi
  tdma_star N s

/-- The reduction of `ellip_1d`: `sum = 0; sum += u_unknowns[i]*grid_spacing` for
`i < num_grid_points`. -/
def sum_loop (N : Nat) (u : Nat → α) (h : α) : α :=
  loopUp (fun i sum => sum + u i * h) 0 N 0

/-- The function `ellip_1d`: `return sum`. -/
def ellip_1d (cosf : α → α) (atan1 : α) (N M : Nat) (xi : Nat → α) : Option α := do
  let u ← ellip_solution cosf atan1 N M xi
  let h ← grid_spacing N
  pure (sum_loop N u h)

end Embedding

section Recurrences

variable {α : Type} [Field α]

/-- Forward sweep of the Thomas algorithm as the spec writes it:
`c'[0] = c[0]/b[0]`, `c'[i] = c[i]/(b[i] - a[i]·c'[i-1])`. -/
def cprime (s : Tridiag α) : Nat → α
  | 0 => s.c 0 / s.b 0
  | i + 1 => s.c (i + 1) / (s.b (i + 1) - s.a (i + 1) * cprime s i)

/-- The divisor of step `i` of the forward sweep: `b[0]`, then
`denom = b[i] - a[i]·c'[i-1]`. -/
def denom (s : Tridiag α) : Nat → α
  | 0 => s.b 0
  | i + 1 => s.b (i + 1) - s.a (i + 1) * cprime s i

/-- Forward sweep of the right-hand side: `d'[0] = d[0]/b[0]`,
`d'[i] = (d[i] - a[i]·d'[i-1])/denom`. -/
def dprime (s : Tridiag α) : Nat → α
  | 0 => s.d 0 / s.b 0
  | i + 1 => (s.d (i + 1) - s.a (i + 1) * dprime s i) / denom s (i + 1)

/-- Back substitution counted from the last index `n`: `backfrom s n k` is `u[n-k]`,
with `u[n] = d'[n]` and `u[i] = d'[i] - c'[i]·u[i+1]`. -/
def backfrom (s : Tridiag α) (n : Nat) : Nat → α
  | 0 => dprime s n
  | k + 1 => dprime s (n - (k + 1)) - cprime s (n - (k + 1)) * backfrom s n k

/-- The solution `u[i]` of the Thomas algorithm for a system whose last index is `n`. -/
def thomas (s : Tridiag α) (n i : Nat) : α := backfrom s n (n - i)

/-- The vector `u` satisfies every equation of the `N`-row tridiagonal system `s`. -/
def Solves (N : Nat) (s : Tridiag α) (u : Nat → α) : Prop :=
  s.b 0 * u 0 + s.c 0 * u 1 = s.d 0 ∧
  (∀ i, 1 ≤ i → i + 2 ≤ N →
    s.a i * u (i - 1) + s.b i * u i + s.c i * u (i + 1) = s.d i) ∧
  s.a (N - 1) * u (N - 2) + s.b (N - 1) * u (N - 1) = s.d (N - 1)

/-- The state of a back substitution that has reached index `k`: below `k` the array
still holds `D`, from `k` to `n` it holds the solution `U`, beyond `n` it holds `E`. -/
def backState (D U E : Nat → α) (n k : Nat) : Nat → α :=
  fun j => if j < k then D j else if j ≤ n then U j else E j

end Recurrences

section ClosedForms

variable {α : Type} [Field α]

/-- Closed form of the grid array: `x[i] = i·h` with `h = 1/(N-1)` for `i < N`. -/
def grid (N : Nat) : Nat → α :=
  fun j => if j < N then (j : α) * (domain_length / ((N - 1 : Nat) : α)) else 0

/-- Closed form of the forcing array: the constant `f` on `i < N`. -/
def forcing (N : Nat) (f : α) : Nat → α :=
  fun j => if j < N then f else 0

/-- Closed form of one diffusivity value: `1` plus the `M` terms of the inner loop,
written as the source computes them at the abscissa `xv`. -/
def kfield (cosf : α → α) (atan1 : α) (M : Nat) (xi : Nat → α) (xv : α) : α :=
  1 + ∑ k in Finset.range M,
    sigma * (1 / (((k : α) + 1) * ((k : α) + 1) * 4 * atan1 * 4 * atan1)
      * cosf (2 * 4 * atan1 * ((k : α) + 1) * xv) * xi k)

/-- Closed form of the array `k_coefficients` over the grid `x`. -/
def karray (cosf : α → α) (atan1 : α) (N M : Nat) (xi x : Nat → α) : Nat → α :=
  fun j => if j < N then kfield cosf atan1 M xi (x j) else 0

/-- Closed form of the arrays after the interior loop of `diffusion_1d`. -/
def interior_diffusion (N : Nat) (x k f : Nat → α) : Tridiag α :=
  { a := fun i => if 1 ≤ i ∧ i + 1 < N then
      0.5 * (k i + k (i - 1)) / (x i - x (i - 1)) else 0
    b := fun i => if 1 ≤ i ∧ i + 1 < N then
      (-1) * 0.5 * (k (i + 1) + k i) / (x (i + 1) - x i)
        + (-1) * 0.5 * (k i + k (i - 1)) / (x i - x (i - 1)) else 0
    c := fun i => if 1 ≤ i ∧ i + 1 < N then
      0.5 * (k (i + 1) + k i) / (x (i + 1) - x i) else 0
    d := fun i => if 1 ≤ i ∧ i + 1 < N then
      f i * 0.5 * (x (i + 1) - x (i - 1)) else 0 }

/-- Closed form of the arrays after the interior loop of `ellip_1d`. -/
def interior_ellip (N : Nat) (x k f : Nat → α) : Tridiag α :=
  { a := fun i => if 1 ≤ i ∧ i + 1 < N then
      (0.5 * (k i + k (i - 1)) / (x i - x (i - 1))) / (0.5 * (x (i + 1) - x (i - 1)))
      else 0
    b := fun i => if 1 ≤ i ∧ i + 1 < N then
      ((-1) * 0.5 * (k (i + 1) + k i) / (x (i + 1) - x i)
        + (-1) * 0.5 * (k i + k (i - 1)) / (x i - x (i - 1)))
        / (0.5 * (x (i + 1) - x (i - 1))) else 0
    c := fun i => if 1 ≤ i ∧ i + 1 < N then
      (0.5 * (k (i + 1) + k i) / (x (i + 1) - x i)) / (0.5 * (x (i + 1) - x (i - 1)))
      else 0
    d := fun i => if 1 ≤ i ∧ i + 1 < N then f i else 0 }

/-- Closed form of the system of `diffusion_1d`. -/
def closed_diffusion (cosf : α → α) (atan1 : α) (N M : Nat) (xi : Nat → α) : Tridiag α :=
  set_boundary N (interior_diffusion N (grid N) (karray cosf atan1 N M xi (grid N))
    (forcing N f_diffusion))

/-- Closed form of the system of `ellip_1d`. -/
def closed_ellip (cosf : α → α) (atan1 : α) (N M : Nat) (xi : Nat → α) : Tridiag α :=
  set_boundary N (interior_ellip N (grid N) (karray cosf atan1 N M xi (grid N))
    (forcing N f_ellip))

end ClosedForms

/-! ## Lemmas on the loops and on the Thomas recurrences -/

section RecurrenceLemmas

variable {α : Type} [Field α]

theorem thomas_last (s : Tridiag α) (n : Nat) : thomas s n n = dprime s n := by
  simp [thomas, backfrom]

theorem thomas_step (s : Tridiag α) {n i : Nat} (h : i < n) :
    thomas s n i = dprime s i - cprime s i * thomas s n (i + 1) := by
  unfold thomas
  obtain ⟨k, hk⟩ : ∃ k, n - i = k + 1 := ⟨n - i - 1, by omega⟩
  have h1 : n - (i + 1) = k := by omega
  have h2 : n - (k + 1) = i := by omega
  rw [hk, h1, backfrom, h2]

theorem denom_succ (s : Tridiag α) (i : Nat) :
    denom s (i + 1) = s.b (i + 1) - s.a (i + 1) * cprime s i := rfl

theorem cprime_succ (s : Tridiag α) (i : Nat) :
    cprime s (i + 1) = s.c (i + 1) / denom s (i + 1) := rfl

/-- A descending loop that walks down a chain of states `T k, ..., T 0`. -/
theorem forDown_chain {σ : Type} (body : Nat → σ → σ) (T : Nat → σ) (k : Nat)
    (h : ∀ i, i < k → body i (T (i + 1)) = T i) : forDown body k (T k) = T 0 := by
  induction k with
  | zero => rfl
  | succ k ih =>
    rw [forDown, h k (Nat.lt_succ_self k)]
    exact ih (fun i hi => h i (Nat.lt_succ_of_lt hi))

omit [Field α] in
theorem backState_update (D U E : Nat → α) (n k : Nat) (hk : k < n) :
    Function.update (backState D U E n (k + 1)) k (U k) = backState D U E n k := by
  funext j
  unfold backState
  by_cases hj : j = k
  · subst hj
    have : j ≤ n := by omega
    simp [this]
  · rw [Function.update_noteq hj]
    by_cases h1 : j < k
    · have : j < k + 1 := by omega
      simp [h1, this]
    · have : ¬ j < k + 1 := by omega
      simp [h1, this]

/-- The in-place back substitution `d[i] -= c[i]*d[i+1]` of `diffusion_1d`. -/
theorem forDown_backsub_inplace (C D U E : Nat → α) (n : Nat)
    (hU : ∀ i, i < n → U i = D i - C i * U (i + 1)) :
    forDown (fun i d => Function.update d i (d i - C i * d (i + 1))) n
        (backState D U E n n) = backState D U E n 0 := by
  apply forDown_chain _ (backState D U E n) n
  intro i hi
  have h1 : backState D U E n (i + 1) i = D i := by simp [backState]
  have h2 : backState D U E n (i + 1) (i + 1) = U (i + 1) := by
    have : i + 1 ≤ n := hi
    simp [backState, this]
  simp only [h1, h2, ← hU i hi]
  exact backState_update D U E n i hi

/-- The back substitution `u[i] = d_star[i]-c_star[i]*u[i+1]` of `ellip_1d`. -/
theorem forDown_backsub_star (C D U D0 E : Nat → α) (n : Nat)
    (hU : ∀ i, i < n → U i = D i - C i * U (i + 1)) :
    forDown (fun i u => Function.update u i (D i - C i * u (i + 1))) n
        (backState D0 U E n n) = backState D0 U E n 0 := by
  apply forDown_chain _ (backState D0 U E n) n
  intro i hi
  have h2 : backState D0 U E n (i + 1) (i + 1) = U (i + 1) := by
    have : i + 1 ≤ n := hi
    simp [backState, this]
  simp only [h2, ← hU i hi]
  exact backState_update D0 U E n i hi

/-- The Thomas recurrences solve the system when no divisor vanishes. -/
theorem thomas_solves (N : Nat) (s : Tridiag α) (hN : 2 ≤ N)
    (h : ∀ i, i < N → denom s i ≠ 0) : Solves N s (thomas s (N - 1)) := by
  obtain ⟨n, rfl⟩ : ∃ n, N = n + 2 := ⟨N - 2, by omega⟩
  have e1 : n + 2 - 1 = n + 1 := rfl
  have e2 : n + 2 - 2 = n := rfl
  rw [e1]
  refine ⟨?_, ?_, ?_⟩
  · have h0 : s.b 0 ≠ 0 := h 0 (by omega)
    rw [thomas_step s (Nat.succ_pos n)]
    simp only [cprime, dprime]
    field_simp
  · intro i hi1 hi2
    obtain ⟨j, rfl⟩ : ∃ j, i = j + 1 := ⟨i - 1, by omega⟩
    have hd : denom s (j + 1) ≠ 0 := h (j + 1) (by omega)
    have hj : j < n + 1 := by omega
    have hj1 : j + 1 < n + 1 := by omega
    rw [Nat.add_sub_cancel, thomas_step s hj, thomas_step s hj1, cprime_succ]
    simp only [dprime]
    have hb : s.b (j + 1) = denom s (j + 1) + s.a (j + 1) * cprime s j := by
      rw [denom_succ]; ring
    rw [hb]
    field_simp
    ring
  · have hd : denom s (n + 1) ≠ 0 := h (n + 1) (by omega)
    rw [e1, e2, thomas_step s (Nat.lt_succ_self n), thomas_last]
    simp only [dprime]
    have hb : s.b (n + 1) = denom s (n + 1) + s.a (n + 1) * cprime s n := by
      rw [denom_succ]; ring
    rw [hb]
    field_simp
    ring

end RecurrenceLemmas

section Lemmas

variable {α : Type} [Field α] [DecidableEq α]

theorem sdiv_of_ne (x : α) {y : α} (h : y ≠ 0) : sdiv x y = some (x / y) := by
  simp [sdiv, h]

theorem sdiv_zero (x : α) : sdiv x (0 : α) = none := by
  simp [sdiv]

theorem sdiv_eq_some_iff (x y v : α) : sdiv x y = some v ↔ y ≠ 0 ∧ v = x / y := by
  unfold sdiv
  by_cases h : y = 0
  · simp [h]
  · simp [h, eq_comm]

theorem forUp_succ {σ : Type} (body : Nat → σ → Option σ) (lo cnt : Nat) (s : σ) :
    forUp body lo (cnt + 1) s = (forUp body lo cnt s).bind (body (lo + cnt)) := rfl

/-- One in-place sweep step with a non-zero divisor. -/
theorem sweep_inplace_eq (a b : Nat → α) (i : Nat) (cd : (Nat → α) × (Nat → α))
    (hi : 1 ≤ i) (h : b i - a i * cd.1 (i - 1) ≠ 0) :
    sweep_inplace a b i cd
      = some (Function.update cd.1 i (cd.1 i / (b i - a i * cd.1 (i - 1))),
              Function.update cd.2 i
                ((cd.2 i - a i * cd.2 (i - 1)) / (b i - a i * cd.1 (i - 1)))) := by
  have hne : i - 1 ≠ i := by omega
  simp only [sweep_inplace, bind, pure, Function.update_noteq hne, sdiv_of_ne _ h,
    Option.some_bind, Option.bind]

/-- The forward sweep of `diffusion_1d` after the steps `1 .. m`: the entries up to `m`
hold `c'` and `d'`, the others are untouched. -/
theorem forUp_sweep_inplace (s : Tridiag α) (m : Nat)
    (h : ∀ i, i ≤ m → denom s i ≠ 0) :
    forUp (sweep_inplace s.a s.b) 1 m
        (Function.update s.c 0 (s.c 0 / s.b 0), Function.update s.d 0 (s.d 0 / s.b 0))
      = some (fun j => if j ≤ m then cprime s j else s.c j,
              fun j => if j ≤ m then dprime s j else s.d j) := by
  induction m with
  | zero =>
    simp only [forUp]
    congr 2
    · funext j
      cases j <;> simp [Function.update, cprime]
    · funext j
      cases j <;> simp [Function.update, dprime]
  | succ m ih =>
    have hd : denom s (m + 1) ≠ 0 := h (m + 1) le_rfl
    rw [forUp_succ, ih (fun i hi => h i (Nat.le_succ_of_le hi))]
    have e : 1 + m = m + 1 := by omega
    rw [Option.some_bind, e, sweep_inplace_eq _ _ _ _ (by omega) (by simpa [denom] using hd)]
    congr 2
    · funext j
      by_cases hj : j = m + 1
      · subst hj; simp [cprime_succ, denom]
      · by_cases hj2 : j ≤ m
        · have : j ≤ m + 1 := by omega
          simp [Function.update_noteq hj, hj2, this]
        · have : ¬ j ≤ m + 1 := by omega
          simp [Function.update_noteq hj, hj2, this]
    · funext j
      by_cases hj : j = m + 1
      · subst hj; simp [dprime, denom]
      · by_cases hj2 : j ≤ m
        · have : j ≤ m + 1 := by omega
          simp [Function.update_noteq hj, hj2, this]
        · have : ¬ j ≤ m + 1 := by omega
          simp [Function.update_noteq hj, hj2, this]

/-- Closed form of the TDMA section of `diffusion_1d`: with non-zero divisors it
returns the Thomas solution in the first `N` entries of `d`. -/
theorem tdma_inplace_eq (N : Nat) (s : Tridiag α) (hN : 2 ≤ N)
    (h : ∀ i, i < N → denom s i ≠ 0) :
    tdma_inplace N s = some (fun j => if j < N then thomas s (N - 1) j else s.d j) := by
  obtain ⟨n, rfl⟩ : ∃ n, N = n + 2 := ⟨N - 2, by omega⟩
  have h0 : s.b 0 ≠ 0 := h 0 (by omega)
  have hl : denom s (n + 1) ≠ 0 := h (n + 1) (by omega)
  have hsw := forUp_sweep_inplace s n (fun i hi => h i (by omega))
  have e1 : n + 2 - 1 = n + 1 := rfl
  have e2 : n + 1 - 1 = n := rfl
  unfold tdma_inplace
  rw [e1]
  simp only [bind, pure, e2, sdiv_of_ne _ h0, Option.some_bind,
    Option.bind, hsw, le_refl, if_true, Nat.not_succ_le_self, if_false, ← denom_succ,
    sdiv_of_ne _ hl]
  congr 1
  have hst : Function.update (fun j => if j ≤ n then dprime s j else s.d j) (n + 1)
        ((s.d (n + 1) - s.a (n + 1) * dprime s n) / denom s (n + 1))
      = backState (dprime s) (thomas s (n + 1)) s.d (n + 1) (n + 1) := by
    funext j
    unfold backState
    by_cases hj : j = n + 1
    · subst hj; simp [thomas_last, dprime]
    · rw [Function.update_noteq hj]
      by_cases h1 : j ≤ n
      · have : j < n + 1 := by omega
        simp [h1, this]
      · have h2 : ¬ j < n + 1 := by omega
        have h3 : ¬ j ≤ n + 1 := by omega
        simp [h1, h2, h3]
  rw [hst]
  have hb := forDown_backsub_inplace (fun j => if j ≤ n then cprime s j else s.c j)
    (dprime s) (thomas s (n + 1)) s.d (n + 1)
    (fun i hi => by
      have : i ≤ n := by omega
      simp [this, thomas_step s hi])
  rw [hb]
  funext j
  simp [backState, Nat.lt_succ_iff]

/-- One out-of-place sweep step with a non-zero divisor. -/
theorem sweep_star_eq (s : Tridiag α) (i : Nat) (cd : (Nat → α) × (Nat → α))
    (h : s.b i - s.a i * cd.1 (i - 1) ≠ 0) :
    sweep_star s i cd
      = some (Function.update cd.1 i (s.c i / (s.b i - s.a i * cd.1 (i - 1))),
              Function.update cd.2 i
                ((s.d i - s.a i * cd.2 (i - 1)) / (s.b i - s.a i * cd.1 (i - 1)))) := by
  simp only [sweep_star, bind, pure, sdiv_of_ne _ h, Option.some_bind, Option.bind,
    mul_one_div]

/-- The forward sweep of `ellip_1d` after the steps `1 .. m`: `c_star` and `d_star`
hold `c'` and `d'` up to `m` and are still zero beyond. -/
theorem forUp_sweep_star (s : Tridiag α) (m : Nat)
    (h : ∀ i, i ≤ m → denom s i ≠ 0) :
    forUp (sweep_star s) 1 m
        (Function.update (fun _ => (0 : α)) 0 (s.c 0 / s.b 0),
         Function.update (fun _ => (0 : α)) 0 (s.d 0 / s.b 0))
      = some (fun j => if j ≤ m then cprime s j else 0,
              fun j => if j ≤ m then dprime s j else 0) := by
  induction m with
  | zero =>
    simp only [forUp]
    congr 2
    · funext j
      cases j <;> simp [Function.update, cprime]
    · funext j
      cases j <;> simp [Function.update, dprime]
  | succ m ih =>
    have hd : denom s (m + 1) ≠ 0 := h (m + 1) le_rfl
    rw [forUp_succ, ih (fun i hi => h i (Nat.le_succ_of_le hi))]
    have e : 1 + m = m + 1 := by omega
    rw [Option.some_bind, e, sweep_star_eq _ _ _ (by simpa [denom] using hd)]
    congr 2
    · funext j
      by_cases hj : j = m + 1
      · subst hj; simp [cprime_succ, denom]
      · by_cases hj2 : j ≤ m
        · have : j ≤ m + 1 := by omega
          simp [Function.update_noteq hj, hj2, this]
        · have : ¬ j ≤ m + 1 := by omega
          simp [Function.update_noteq hj, hj2, this]
    · funext j
      by_cases hj : j = m + 1
      · subst hj; simp [dprime, denom]
      · by_cases hj2 : j ≤ m
        · have : j ≤ m + 1 := by omega
          simp [Function.update_noteq hj, hj2, this]
        · have : ¬ j ≤ m + 1 := by omega
          simp [Function.update_noteq hj, hj2, this]

/-- Closed form of the TDMA section of `ellip_1d`: with non-zero divisors
`u_unknowns` holds the Thomas solution in its first `N` entries. -/
theorem tdma_star_eq (N : Nat) (s : Tridiag α) (hN : 2 ≤ N)
    (h : ∀ i, i < N → denom s i ≠ 0) :
    tdma_star N s = some (fun j => if j < N then thomas s (N - 1) j else 0) := by
  obtain ⟨n, rfl⟩ : ∃ n, N = n + 2 := ⟨N - 2, by omega⟩
  have h0 : s.b 0 ≠ 0 := h 0 (by omega)
  have hl : denom s (n + 1) ≠ 0 := h (n + 1) (by omega)
  have hsw := forUp_sweep_star s n (fun i hi => h i (by omega))
  have e1 : n + 2 - 1 = n + 1 := rfl
  have e2 : n + 2 - 2 = n := rfl
  unfold tdma_star
  rw [e1, e2]
  simp only [bind, pure, sdiv_of_ne _ h0, Option.some_bind,
    Option.bind, hsw, le_refl, if_true, ← denom_succ, sdiv_of_ne _ hl, mul_one_div,
    Function.update_same]
  congr 1
  have hds : Function.update (fun j => if j ≤ n then dprime s j else 0) (n + 1)
        ((s.d (n + 1) - s.a (n + 1) * dprime s n) / denom s (n + 1))
      = fun j => if j ≤ n + 1 then dprime s j else 0 := by
    funext j
    by_cases hj : j = n + 1
    · subst hj; simp [dprime]
    · rw [Function.update_noteq hj]
      by_cases h1 : j ≤ n
      · have : j ≤ n + 1 := by omega
        simp [h1, this]
      · have h3 : ¬ j ≤ n + 1 := by omega
        simp [h1, h3]
  have hst : Function.update (fun _ => (0 : α)) (n + 1)
        ((s.d (n + 1) - s.a (n + 1) * dprime s n) / denom s (n + 1))
      = backState (fun _ => 0) (thomas s (n + 1)) (fun _ => 0) (n + 1) (n + 1) := by
    funext j
    unfold backState
    by_cases hj : j = n + 1
    · subst hj; simp [thomas_last, dprime]
    · rw [Function.update_noteq hj]
      by_cases h1 : j < n + 1
      · simp [h1]
      · have h3 : ¬ j ≤ n + 1 := by omega
        simp [h1, h3]
  rw [hds, hst]
  have hb := forDown_backsub_star (fun j => if j ≤ n then cprime s j else 0)
    (fun j => if j ≤ n + 1 then dprime s j else 0) (thomas s (n + 1)) (fun _ => 0)
    (fun _ => 0) (n + 1)
    (fun i hi => by
      have h1 : i ≤ n := by omega
      have h2 : i ≤ n + 1 := by omega
      simp [h1, h2, thomas_step s hi])
  rw [hb]
  funext j
  simp [backState, Nat.lt_succ_iff]

omit [DecidableEq α] in
/-- Whether `u` solves the `N`-row system depends on its first `N` entries only. -/
theorem Solves_congr (N : Nat) (s : Tridiag α) (u v : Nat → α) (hN : 2 ≤ N)
    (huv : ∀ i, i < N → v i = u i) (h : Solves N s u) : Solves N s v := by
  obtain ⟨h1, h2, h3⟩ := h
  refine ⟨?_, ?_, ?_⟩
  · rw [huv 0 (by omega), huv 1 (by omega)]; exact h1
  · intro i hi1 hi2
    rw [huv (i - 1) (by omega), huv i (by omega), huv (i + 1) (by omega)]
    exact h2 i hi1 hi2
  · rw [huv (N - 2) (by omega), huv (N - 1) (by omega)]; exact h3

omit [DecidableEq α] in
/-- The divisors named by the claims are the divisors `denom` of the recurrences. -/
theorem denom_ne_zero_of (N : Nat) (s : Tridiag α) (hb0 : s.b 0 ≠ 0)
    (hden : ∀ i, 1 ≤ i → i < N → s.b i - s.a i * cprime s (i - 1) ≠ 0) :
    ∀ i, i < N → denom s i ≠ 0 := by
  intro i hi
  cases i with
  | zero => exact hb0
  | succ j => exact hden (j + 1) (by omega) hi

end Lemmas

section FillLemmas

variable {α : Type} [Field α] [DecidableEq α]

omit [Field α] [DecidableEq α] in
/-- A loop whose step `i` stores `v i` at index `i` fills the first `n` entries. -/
theorem forUp_fill {β : Type} (body : Nat → (Nat → β) → Option (Nat → β)) (v : Nat → β)
    (n : Nat) (init : Nat → β)
    (h : ∀ i, i < n → ∀ x, body i x = some (Function.update x i (v i))) :
    forUp body 0 n init = some (fun j => if j < n then v j else init j) := by
  induction n with
  | zero => simp [forUp]
  | succ n ih =>
    rw [forUp_succ, ih (fun i hi => h i (Nat.lt_succ_of_lt hi)), Option.some_bind,
      Nat.zero_add, h n (Nat.lt_succ_self n)]
    congr 1
    funext j
    by_cases hj : j = n
    · subst hj; simp
    · rw [Function.update_noteq hj]
      by_cases h1 : j < n
      · have : j < n + 1 := by omega
        simp [h1, this]
      · have : ¬ j < n + 1 := by omega
        simp [h1, this]

omit [DecidableEq α] in
/-- The forcing loop in closed form. -/
theorem f_terms_eq (N : Nat) (f : α) : f_terms N f = forcing N f := by
  unfold f_terms forcing
  induction N with
  | zero => simp [loopUp]
  | succ n ih =>
    rw [loopUp, ih, Nat.zero_add]
    funext j
    by_cases hj : j = n
    · subst hj; simp
    · rw [Function.update_noteq hj]
      by_cases h1 : j < n
      · have : j < n + 1 := by omega
        simp [h1, this]
      · have : ¬ j < n + 1 := by omega
        simp [h1, this]

/-- The grid spacing is defined as soon as there are two grid points. -/
theorem grid_spacing_eq [CharZero α] (N : Nat) (hN : 2 ≤ N) :
    grid_spacing (α := α) N = some (domain_length / ((N - 1 : Nat) : α)) := by
  have h : (((N - 1 : Nat) : α)) ≠ 0 := Nat.cast_ne_zero.mpr (by omega)
  exact sdiv_of_ne _ h

/-- The grid loop in closed form. -/
theorem x_points_eq [CharZero α] (N : Nat) (hN : 2 ≤ N) :
    x_points (α := α) N = some (grid N) := by
  unfold x_points grid
  apply forUp_fill
  intro i _ x
  simp only [grid_spacing_eq N hN, bind, pure, Option.bind]

/-- The inner loop of the field loop in closed form: no mode, or `atan(1.0) ≠ 0`. -/
theorem forUp_k_term [CharZero α] (cosf : α → α) (atan1 : α) (M : Nat) (xi : Nat → α)
    (xv : α) (h : M = 0 ∨ atan1 ≠ 0) :
    forUp (k_term cosf atan1 xi xv) 0 M 1 = some (kfield cosf atan1 M xi xv) := by
  induction M with
  | zero => simp [forUp, kfield]
  | succ m ih =>
    have ha : atan1 ≠ 0 := by
      rcases h with h | h
      · omega
      · exact h
    have hk : ((m : α) + 1) ≠ 0 := Nat.cast_add_one_ne_zero m
    have hq : ((m : α) + 1) * ((m : α) + 1) * 4 * atan1 * 4 * atan1 ≠ 0 := by
      have h4 : (4 : α) ≠ 0 := by norm_num
      simp [hk, ha]
    rw [forUp_succ, ih (Or.inr ha), Option.some_bind, Nat.zero_add]
    simp only [k_term, bind, pure, Option.bind, sdiv_of_ne _ hq, kfield,
      Finset.sum_range_succ, add_assoc]

/-- The field loop in closed form. -/
theorem k_coefficients_eq [CharZero α] (cosf : α → α) (atan1 : α) (N M : Nat)
    (xi x : Nat → α) (h : M = 0 ∨ atan1 ≠ 0) :
    k_coefficients cosf atan1 N M xi x = some (karray cosf atan1 N M xi x) := by
  unfold k_coefficients karray
  apply forUp_fill
  intro i _ kc
  simp only [forUp_k_term cosf atan1 M xi (x i) h, bind, pure, Option.bind]

end FillLemmas

section AssemblyLemmas

variable {α : Type} [Field α] [DecidableEq α]

omit [DecidableEq α] in
/-- Writing row `m+1` extends the interior rows `1 .. m` to `1 .. m+1`. -/
theorem update_interior (g : Nat → α) (m : Nat) :
    Function.update (fun i => if 1 ≤ i ∧ i + 1 < m + 2 then g i else 0) (m + 1) (g (m + 1))
      = fun i => if 1 ≤ i ∧ i + 1 < m + 3 then g i else 0 := by
  funext j
  by_cases hj : j = m + 1
  · subst hj; simp
  · rw [Function.update_noteq hj]
    by_cases h1 : 1 ≤ j ∧ j + 1 < m + 2
    · have : 1 ≤ j ∧ j + 1 < m + 3 := ⟨h1.1, by omega⟩
      simp [h1, this]
    · have : ¬ (1 ≤ j ∧ j + 1 < m + 3) := by omega
      rw [if_neg h1, if_neg this]

/-- The interior loop of `diffusion_1d` after `m` rows, all grid steps being non-zero. -/
theorem forUp_row_diffusion (x k f : Nat → α) (m : Nat)
    (hx : ∀ i, i ≤ m → x (i + 1) - x i ≠ 0) :
    forUp (row_diffusion x k f) 1 m blank = some (interior_diffusion (m + 2) x k f) := by
  induction m with
  | zero =>
    simp only [forUp, blank, interior_diffusion]
    congr 2 <;> funext j <;> rw [if_neg (by omega)]
  | succ m ih =>
    rw [forUp_succ, ih (fun i hi => hx i (Nat.le_succ_of_le hi)), Option.some_bind]
    have e : 1 + m = m + 1 := by omega
    have h1 : x (m + 1) - x m ≠ 0 := hx m (Nat.le_succ m)
    have h2 : x (m + 1 + 1) - x (m + 1) ≠ 0 := hx (m + 1) le_rfl
    simp only [e, row_diffusion, bind, pure, Option.bind, Nat.add_sub_cancel,
      sdiv_of_ne _ h1, sdiv_of_ne _ h2, interior_diffusion]
    congr 2
    · exact update_interior (fun i => 0.5 * (k i + k (i - 1)) / (x i - x (i - 1))) m
    · exact update_interior (fun i => (-1) * 0.5 * (k (i + 1) + k i) / (x (i + 1) - x i)
        + (-1) * 0.5 * (k i + k (i - 1)) / (x i - x (i - 1))) m
    · exact update_interior (fun i => 0.5 * (k (i + 1) + k i) / (x (i + 1) - x i)) m
    · exact update_interior (fun i => f i * 0.5 * (x (i + 1) - x (i - 1))) m

/-- The interior loop of `ellip_1d` after `m` rows, all grid steps and all
control-volume widths being non-zero. -/
theorem forUp_row_ellip (x k f : Nat → α) (m : Nat)
    (hx : ∀ i, i ≤ m → x (i + 1) - x i ≠ 0)
    (hw : ∀ i, 1 ≤ i → i ≤ m → 0.5 * (x (i + 1) - x (i - 1)) ≠ 0) :
    forUp (row_ellip x k f) 1 m blank = some (interior_ellip (m + 2) x k f) := by
  induction m with
  | zero =>
    simp only [forUp, blank, interior_ellip]
    congr 2 <;> funext j <;> rw [if_neg (by omega)]
  | succ m ih =>
    rw [forUp_succ, ih (fun i hi => hx i (Nat.le_succ_of_le hi))
      (fun i hi1 hi => hw i hi1 (Nat.le_succ_of_le hi)), Option.some_bind]
    have e : 1 + m = m + 1 := by omega
    have h1 : x (m + 1) - x m ≠ 0 := hx m (Nat.le_succ m)
    have h2 : x (m + 1 + 1) - x (m + 1) ≠ 0 := hx (m + 1) le_rfl
    have h3 : 0.5 * (x (m + 1 + 1) - x m) ≠ 0 := by
      simpa using hw (m + 1) (by omega) le_rfl
    simp only [e, row_ellip, bind, pure, Option.bind, Nat.add_sub_cancel,
      sdiv_of_ne _ h1, sdiv_of_ne _ h2, sdiv_of_ne _ h3, interior_ellip]
    congr 2
    · exact update_interior (fun i => (0.5 * (k i + k (i - 1)) / (x i - x (i - 1)))
        / (0.5 * (x (i + 1) - x (i - 1)))) m
    · exact update_interior (fun i => ((-1) * 0.5 * (k (i + 1) + k i) / (x (i + 1) - x i)
        + (-1) * 0.5 * (k i + k (i - 1)) / (x i - x (i - 1)))
        / (0.5 * (x (i + 1) - x (i - 1)))) m
    · exact update_interior (fun i => (0.5 * (k (i + 1) + k i) / (x (i + 1) - x i))
        / (0.5 * (x (i + 1) - x (i - 1)))) m
    · exact update_interior (fun i => f i) m

end AssemblyLemmas

section SystemLemmas

variable {α : Type} [Field α] [DecidableEq α]

/-- Assembly of `diffusion_1d` in closed form, all grid steps being non-zero. -/
theorem assemble_diffusion_eq (N : Nat) (x k f : Nat → α) (hN : 2 ≤ N)
    (hx : ∀ i, i + 1 < N → x (i + 1) - x i ≠ 0) :
    assemble_diffusion N x k f = some (set_boundary N (interior_diffusion N x k f)) := by
  obtain ⟨m, rfl⟩ : ∃ m, N = m + 2 := ⟨N - 2, by omega⟩
  unfold assemble_diffusion
  rw [Nat.add_sub_cancel, forUp_row_diffusion x k f m (fun i hi => hx i (by omega))]
  rfl

/-- Assembly of `ellip_1d` in closed form, all grid steps and control-volume widths
being non-zero. -/
theorem assemble_ellip_eq (N : Nat) (x k f : Nat → α) (hN : 2 ≤ N)
    (hx : ∀ i, i + 1 < N → x (i + 1) - x i ≠ 0)
    (hw : ∀ i, 1 ≤ i → i + 1 < N → 0.5 * (x (i + 1) - x (i - 1)) ≠ 0) :
    assemble_ellip N x k f = some (set_boundary N (interior_ellip N x k f)) := by
  obtain ⟨m, rfl⟩ : ∃ m, N = m + 2 := ⟨N - 2, by omega⟩
  unfold assemble_ellip
  rw [Nat.add_sub_cancel, forUp_row_ellip x k f m (fun i hi => hx i (by omega))
    (fun i hi1 hi => hw i hi1 (by omega))]
  rfl

omit [DecidableEq α] in
/-- The grid spacing `h = 1/(N-1)` is not zero. -/
theorem spacing_ne_zero [CharZero α] (N : Nat) (hN : 2 ≤ N) :
    (domain_length / ((N - 1 : Nat) : α) : α) ≠ 0 := by
  have h : (((N - 1 : Nat) : α)) ≠ 0 := Nat.cast_ne_zero.mpr (by omega)
  simp [domain_length, h]

omit [DecidableEq α] in
/-- Inside the grid, `x[i] = i·h`. -/
theorem grid_apply (N i : Nat) (hi : i < N) :
    grid (α := α) N i = (i : α) * (domain_length / ((N - 1 : Nat) : α)) := by
  simp [grid, hi]

omit [DecidableEq α] in
/-- Consecutive grid points are `h` apart. -/
theorem grid_step (N i : Nat) (hi : i + 1 < N) :
    grid (α := α) N (i + 1) - grid N i = domain_length / ((N - 1 : Nat) : α) := by
  rw [grid_apply N (i + 1) hi, grid_apply N i (by omega)]
  push_cast
  ring

omit [DecidableEq α] in
/-- The control volume of an interior point is `2h` wide. -/
theorem grid_width (N i : Nat) (hi1 : 1 ≤ i) (hi : i + 1 < N) :
    grid (α := α) N (i + 1) - grid N (i - 1) = 2 * (domain_length / ((N - 1 : Nat) : α)) := by
  obtain ⟨j, rfl⟩ : ∃ j, i = j + 1 := ⟨i - 1, by omega⟩
  rw [grid_apply N (j + 1 + 1) hi, Nat.add_sub_cancel, grid_apply N j (by omega)]
  push_cast
  ring

/-- Closed form of the system of `diffusion_1d`. -/
theorem diffusion_system_eq [CharZero α] (cosf : α → α) (atan1 : α) (N M : Nat)
    (xi : Nat → α) (hN : 2 ≤ N) (h : M = 0 ∨ atan1 ≠ 0) :
    diffusion_system cosf atan1 N M xi
      = some (set_boundary N (interior_diffusion N (grid N)
          (karray cosf atan1 N M xi (grid N)) (forcing N f_diffusion))) := by
  have hN0 : N ≠ 0 := by omega
  unfold diffusion_system
  simp only [hN0, if_false, x_points_eq N hN, f_terms_eq, bind, pure, Option.bind,
    k_coefficients_eq cosf atan1 N M xi _ h]
  apply assemble_diffusion_eq N _ _ _ hN
  intro i hi
  rw [grid_step N i hi]
  exact spacing_ne_zero N hN

/-- Closed form of the system of `ellip_1d`. -/
theorem ellip_system_eq [CharZero α] (cosf : α → α) (atan1 : α) (N M : Nat)
    (xi : Nat → α) (hN : 2 ≤ N) (h : M = 0 ∨ atan1 ≠ 0) :
    ellip_system cosf atan1 N M xi
      = some (set_boundary N (interior_ellip N (grid N)
          (karray cosf atan1 N M xi (grid N)) (forcing N f_ellip))) := by
  have hN0 : N ≠ 0 := by omega
  unfold ellip_system
  simp only [hN0, if_false, x_points_eq N hN, f_terms_eq, bind, pure, Option.bind,
    k_coefficients_eq cosf atan1 N M xi _ h]
  apply assemble_ellip_eq N _ _ _ hN
  · intro i hi
    rw [grid_step N i hi]
    exact spacing_ne_zero N hN
  · intro i hi1 hi
    rw [grid_width N i hi1 hi]
    have := spacing_ne_zero (α := α) N hN
    have h5 : (0.5 : α) ≠ 0 := by norm_num
    have h2 : (2 : α) ≠ 0 := by norm_num
    exact mul_ne_zero h5 (mul_ne_zero h2 this)

omit [Field α] [DecidableEq α] in
/-- Row `0` after the boundary rows are written. -/
theorem set_boundary_zero [Field α] (N : Nat) (s : Tridiag α) :
    (set_boundary N s).a 0 = 0 ∧ (set_boundary N s).b 0 = 1 ∧
    (set_boundary N s).c 0 = 0 ∧ (set_boundary N s).d 0 = 0 := by
  by_cases h : (0 : Nat) = N - 1
  · simp [set_boundary, ← h, u_1]
  · simp [set_boundary, Function.update_noteq h, u_0]

omit [Field α] [DecidableEq α] in
/-- Row `N-1` after the boundary rows are written. -/
theorem set_boundary_last [Field α] (N : Nat) (s : Tridiag α) :
    (set_boundary N s).a (N - 1) = 0 ∧ (set_boundary N s).b (N - 1) = 1 ∧
    (set_boundary N s).c (N - 1) = 0 ∧ (set_boundary N s).d (N - 1) = 0 := by
  simp [set_boundary, u_1]

omit [Field α] [DecidableEq α] in
/-- The interior rows are untouched by the boundary rows. -/
theorem set_boundary_interior [Field α] (N i : Nat) (s : Tridiag α) (hi1 : 1 ≤ i)
    (hi : i + 1 < N) :
    (set_boundary N s).a i = s.a i ∧ (set_boundary N s).b i = s.b i ∧
    (set_boundary N s).c i = s.c i ∧ (set_boundary N s).d i = s.d i := by
  have h0 : i ≠ 0 := by omega
  have h1 : i ≠ N - 1 := by omega
  simp [set_boundary, Function.update_noteq h0, Function.update_noteq h1]

end SystemLemmas

section Uniqueness

variable {α : Type} [Field α]

/-- A solution of the system obeys the back-substitution relation at every row but
the last. -/
theorem solves_backstep (N : Nat) (s : Tridiag α) (v : Nat → α) (hN : 2 ≤ N)
    (h : ∀ i, i < N → denom s i ≠ 0) (hv : Solves N s v) :
    ∀ i, i + 1 < N → v i = dprime s i - cprime s i * v (i + 1) := by
  obtain ⟨h1, h2, _⟩ := hv
  intro i
  induction i with
  | zero =>
    intro _
    have h0 : s.b 0 ≠ 0 := h 0 (by omega)
    simp only [cprime, dprime]
    field_simp
    linear_combination h1
  | succ j ih =>
    intro hj
    have hd : denom s (j + 1) ≠ 0 := h (j + 1) (by omega)
    have e := h2 (j + 1) (by omega) (by omega)
    rw [Nat.add_sub_cancel, ih (by omega)] at e
    have hb : s.b (j + 1) = denom s (j + 1) + s.a (j + 1) * cprime s j := by
      rw [denom_succ]; ring
    rw [hb] at e
    rw [cprime_succ]
    simp only [dprime]
    field_simp
    linear_combination e

/-- A solution of the system has the value `d'[N-1]` at the last row. -/
theorem solves_last (N : Nat) (s : Tridiag α) (v : Nat → α) (hN : 2 ≤ N)
    (h : ∀ i, i < N → denom s i ≠ 0) (hv : Solves N s v) :
    v (N - 1) = dprime s (N - 1) := by
  have hstep := solves_backstep N s v hN h hv
  obtain ⟨n, rfl⟩ : ∃ n, N = n + 2 := ⟨N - 2, by omega⟩
  obtain ⟨_, _, h3⟩ := hv
  have e1 : n + 2 - 1 = n + 1 := rfl
  have e2 : n + 2 - 2 = n := rfl
  rw [e1, e2, hstep n (by omega)] at h3
  rw [e1]
  have hd : denom s (n + 1) ≠ 0 := h (n + 1) (by omega)
  have hb : s.b (n + 1) = denom s (n + 1) + s.a (n + 1) * cprime s n := by
    rw [denom_succ]; ring
  rw [hb] at h3
  simp only [dprime]
  field_simp
  linear_combination h3

/-- With non-zero divisors the system has one solution only, the one the Thomas
algorithm computes. -/
theorem thomas_unique (N : Nat) (s : Tridiag α) (v : Nat → α) (hN : 2 ≤ N)
    (h : ∀ i, i < N → denom s i ≠ 0) (hv : Solves N s v) :
    ∀ i, i < N → thomas s (N - 1) i = v i := by
  have hstep := solves_backstep N s v hN h hv
  have hlast := solves_last N s v hN h hv
  have key : ∀ k, k ≤ N - 1 → thomas s (N - 1) (N - 1 - k) = v (N - 1 - k) := by
    intro k
    induction k with
    | zero =>
      intro _
      rw [Nat.sub_zero, thomas_last, hlast]
    | succ k ih =>
      intro hk
      have e : N - 1 - (k + 1) + 1 = N - 1 - k := by omega
      rw [thomas_step s (by omega), e, ih (by omega), hstep (N - 1 - (k + 1)) (by omega), e]
  intro i hi
  have := key (N - 1 - i) (by omega)
  have e : N - 1 - (N - 1 - i) = i := by omega
  rwa [e] at this

end Uniqueness

section Signs

variable {α : Type} [LinearOrderedField α]

/-- Diagonal dominance: when row `0` is the identity row and every interior row has
positive off-diagonal entries `a`, `c` and diagonal `-(a + c)`, the forward sweep keeps
`-1 < c' ≤ 0` and every interior divisor is negative. -/
theorem cprime_bounds (N : Nat) (s : Tridiag α) (hb0 : s.b 0 = 1) (hc0 : s.c 0 = 0)
    (hint : ∀ i, 1 ≤ i → i + 1 < N →
      0 < s.a i ∧ 0 < s.c i ∧ s.b i = -(s.a i + s.c i)) :
    ∀ i, i + 1 < N → (-1 < cprime s i ∧ cprime s i ≤ 0) ∧ (1 ≤ i → denom s i < 0) := by
  intro i
  induction i with
  | zero =>
    intro _
    refine ⟨?_, fun h => absurd h (by decide)⟩
    simp [cprime, hb0, hc0]
  | succ j ih =>
    intro hj
    obtain ⟨⟨hl, hu⟩, _⟩ := ih (by omega)
    obtain ⟨ha, hc, hb⟩ := hint (j + 1) (by omega) hj
    have hpos : 0 < s.a (j + 1) * (1 + cprime s j) := mul_pos ha (by linarith)
    have hd : denom s (j + 1) < 0 := by
      rw [denom_succ, hb]
      nlinarith
    refine ⟨⟨?_, ?_⟩, fun _ => hd⟩
    · rw [cprime_succ, lt_div_iff_of_neg hd]
      rw [denom_succ, hb]
      nlinarith
    · rw [cprime_succ]
      exact div_nonpos_of_nonneg_of_nonpos hc.le hd.le

/-- Under diagonal dominance and identity boundary rows no divisor of the forward
sweep is zero. -/
theorem denom_ne_zero_of_dominant (N : Nat) (s : Tridiag α) (hN : 2 ≤ N)
    (hb0 : s.b 0 = 1) (hc0 : s.c 0 = 0)
    (hbl : s.b (N - 1) = 1) (hal : s.a (N - 1) = 0)
    (hint : ∀ i, 1 ≤ i → i + 1 < N →
      0 < s.a i ∧ 0 < s.c i ∧ s.b i = -(s.a i + s.c i)) :
    ∀ i, i < N → denom s i ≠ 0 := by
  intro i hi
  by_cases hlast : i + 1 < N
  · cases i with
    | zero => simp [denom, hb0]
    | succ j => exact ((cprime_bounds N s hb0 hc0 hint (j + 1) hlast).2 (by omega)).ne
  · obtain ⟨n, rfl⟩ : ∃ n, N = n + 2 := ⟨N - 2, by omega⟩
    have e : i = n + 1 := by omega
    have e1 : n + 2 - 1 = n + 1 := rfl
    rw [e1] at hbl hal
    subst e
    rw [denom_succ, hbl, hal]
    simp

end Signs

section UniformGrid

variable {α : Type} [Field α]

/-- The grid step behind an interior point. -/
theorem grid_step_back (N i : Nat) (hi1 : 1 ≤ i) (hi : i < N) :
    grid (α := α) N i - grid N (i - 1) = domain_length / ((N - 1 : Nat) : α) := by
  obtain ⟨j, rfl⟩ : ∃ j, i = j + 1 := ⟨i - 1, by omega⟩
  rw [Nat.add_sub_cancel]
  exact grid_step N j hi

/-- The interior row `i` of the system of `diffusion_1d` on the uniform grid, for any
diffusivity and forcing arrays. -/
theorem diffusion_row [CharZero α] (N i : Nat) (k f : Nat → α) (hi1 : 1 ≤ i) (hi : i + 1 < N) :
    (set_boundary N (interior_diffusion N (grid N) k f)).a i
        = 0.5 * (k i + k (i - 1)) / (domain_length / ((N - 1 : Nat) : α)) ∧
    (set_boundary N (interior_diffusion N (grid N) k f)).c i
        = 0.5 * (k (i + 1) + k i) / (domain_length / ((N - 1 : Nat) : α)) ∧
    (set_boundary N (interior_diffusion N (grid N) k f)).b i
        = -((set_boundary N (interior_diffusion N (grid N) k f)).a i
            + (set_boundary N (interior_diffusion N (grid N) k f)).c i) ∧
    (set_boundary N (interior_diffusion N (grid N) k f)).d i
        = f i * (domain_length / ((N - 1 : Nat) : α)) := by
  obtain ⟨ea, eb, ec, ed⟩ := set_boundary_interior N i (interior_diffusion N (grid N) k f)
    hi1 hi
  have hc : 1 ≤ i ∧ i + 1 < N := ⟨hi1, hi⟩
  rw [ea, eb, ec, ed]
  simp only [interior_diffusion, hc, and_self, if_true, grid_step N i hi,
    grid_step_back N i hi1 (by omega), grid_width N i hi1 hi]
  refine ⟨trivial, trivial, ?_, ?_⟩
  · ring
  · have e5 : (0.5 : α) = 1 / 2 := by norm_num
    rw [e5]
    ring

/-- The interior row `i` of the system of `ellip_1d` on the uniform grid: the row of
`diffusion_1d` divided by the control-volume width `h`. -/
theorem ellip_row [CharZero α] (N i : Nat) (k f : Nat → α) (hi1 : 1 ≤ i) (hi : i + 1 < N) :
    (set_boundary N (interior_ellip N (grid N) k f)).a i
        = 0.5 * (k i + k (i - 1)) / (domain_length / ((N - 1 : Nat) : α))
            / (domain_length / ((N - 1 : Nat) : α)) ∧
    (set_boundary N (interior_ellip N (grid N) k f)).c i
        = 0.5 * (k (i + 1) + k i) / (domain_length / ((N - 1 : Nat) : α))
            / (domain_length / ((N - 1 : Nat) : α)) ∧
    (set_boundary N (interior_ellip N (grid N) k f)).b i
        = -((set_boundary N (interior_ellip N (grid N) k f)).a i
            + (set_boundary N (interior_ellip N (grid N) k f)).c i) ∧
    (set_boundary N (interior_ellip N (grid N) k f)).d i = f i := by
  obtain ⟨ea, eb, ec, ed⟩ := set_boundary_interior N i (interior_ellip N (grid N) k f)
    hi1 hi
  have hc : 1 ≤ i ∧ i + 1 < N := ⟨hi1, hi⟩
  have hh : (domain_length / ((N - 1 : Nat) : α) : α) ≠ 0 := spacing_ne_zero N (by omega)
  have e5 : (0.5 : α) * (2 * (domain_length / ((N - 1 : Nat) : α)))
      = domain_length / ((N - 1 : Nat) : α) := by
    have e : (0.5 : α) = 1 / 2 := by norm_num
    rw [e]
    ring
  rw [ea, eb, ec, ed]
  simp only [interior_ellip, hc, and_self, if_true, grid_step N i hi,
    grid_step_back N i hi1 (by omega), grid_width N i hi1 hi, e5]
  refine ⟨trivial, trivial, ?_, trivial⟩
  field_simp
  ring

/-- Without uncertainties the diffusivity array is `1` on the grid. -/
theorem karray_zero (cosf : α → α) (atan1 : α) (N i : Nat) (xi x : Nat → α) (hi : i < N) :
    karray cosf atan1 N 0 xi x i = 1 := by
  simp [karray, kfield, hi]

/-- The forcing array is `f` on the grid. -/
theorem forcing_apply (N i : Nat) (f : α) (hi : i < N) : forcing N f i = f := by
  simp [forcing, hi]

/-- The parabola `-(f/2)·x·(1 - x)` sampled on the uniform grid: the solution of
`u'' = f`, `u(0) = u(1) = 0`. -/
theorem parabola_solves_diffusion [CharZero α] (cosf : α → α) (atan1 : α) (N : Nat)
    (xi : Nat → α) (f : α) (hN : 2 ≤ N) :
    Solves N (set_boundary N (interior_diffusion N (grid N)
        (karray cosf atan1 N 0 xi (grid N)) (forcing N f)))
      (fun i => -(f / 2) * ((i : α) / ((N - 1 : Nat) : α))
        * (1 - (i : α) / ((N - 1 : Nat) : α))) := by
  have hH : (((N - 1 : Nat) : α)) ≠ 0 := Nat.cast_ne_zero.mpr (by omega)
  refine ⟨?_, ?_, ?_⟩
  · obtain ⟨_, eb, ec, ed⟩ := set_boundary_zero N (interior_diffusion N (grid N)
      (karray cosf atan1 N 0 xi (grid N)) (forcing N f))
    rw [eb, ec, ed]
    simp
  · intro i hi1 hi2
    obtain ⟨ea, ec, eb, ed⟩ := diffusion_row N i (karray cosf atan1 N 0 xi (grid N))
      (forcing N f) hi1 (by omega)
    rw [eb, ea, ec, ed, karray_zero _ _ _ _ _ _ (by omega), karray_zero _ _ _ _ _ _ (by omega),
      karray_zero _ _ _ _ _ _ (by omega), forcing_apply _ _ _ (by omega)]
    obtain ⟨j, rfl⟩ : ∃ j, i = j + 1 := ⟨i - 1, by omega⟩
    simp only [Nat.add_sub_cancel, domain_length]
    generalize (((N - 1 : Nat) : α)) = H at hH ⊢
    have e5 : (0.5 : α) = 1 / 2 := by norm_num
    have h2 : (2 : α) ≠ 0 := two_ne_zero
    rw [e5]
    push_cast
    have hA : (1 / 2 : α) * (1 + 1) / (1 / H) = H := by field_simp
    rw [hA]
    field_simp
    ring_nf
    field_simp
  · obtain ⟨ea, eb, _, ed⟩ := set_boundary_last N (interior_diffusion N (grid N)
      (karray cosf atan1 N 0 xi (grid N)) (forcing N f))
    rw [ea, eb, ed]
    simp [hH]

/-- The same parabola solves the system of `ellip_1d`. -/
theorem parabola_solves_ellip [CharZero α] (cosf : α → α) (atan1 : α) (N : Nat)
    (xi : Nat → α) (f : α) (hN : 2 ≤ N) :
    Solves N (set_boundary N (interior_ellip N (grid N)
        (karray cosf atan1 N 0 xi (grid N)) (forcing N f)))
      (fun i => -(f / 2) * ((i : α) / ((N - 1 : Nat) : α))
        * (1 - (i : α) / ((N - 1 : Nat) : α))) := by
  have hH : (((N - 1 : Nat) : α)) ≠ 0 := Nat.cast_ne_zero.mpr (by omega)
  refine ⟨?_, ?_, ?_⟩
  · obtain ⟨_, eb, ec, ed⟩ := set_boundary_zero N (interior_ellip N (grid N)
      (karray cosf atan1 N 0 xi (grid N)) (forcing N f))
    rw [eb, ec, ed]
    simp
  · intro i hi1 hi2
    obtain ⟨ea, ec, eb, ed⟩ := ellip_row N i (karray cosf atan1 N 0 xi (grid N))
      (forcing N f) hi1 (by omega)
    rw [eb, ea, ec, ed, karray_zero _ _ _ _ _ _ (by omega), karray_zero _ _ _ _ _ _ (by omega),
      karray_zero _ _ _ _ _ _ (by omega), forcing_apply _ _ _ (by omega)]
    obtain ⟨j, rfl⟩ : ∃ j, i = j + 1 := ⟨i - 1, by omega⟩
    simp only [Nat.add_sub_cancel, domain_length]
    generalize (((N - 1 : Nat) : α)) = H at hH ⊢
    have e5 : (0.5 : α) = 1 / 2 := by norm_num
    have h2 : (2 : α) ≠ 0 := two_ne_zero
    rw [e5]
    push_cast
    have hA : (1 / 2 : α) * (1 + 1) / (1 / H) / (1 / H) = H * H := by field_simp
    rw [hA]
    field_simp
    ring_nf
    field_simp
  · obtain ⟨ea, eb, _, ed⟩ := set_boundary_last N (interior_ellip N (grid N)
      (karray cosf atan1 N 0 xi (grid N)) (forcing N f))
    rw [ea, eb, ed]
    simp [hH]

end UniformGrid

section SolutionClosedForms

variable {α : Type} [Field α] [DecidableEq α] [CharZero α]

/-- The system of `diffusion_1d` is its closed form. -/
theorem diffusion_system_closed (cosf : α → α) (atan1 : α) (N M : Nat) (xi : Nat → α)
    (hN : 2 ≤ N) (h : M = 0 ∨ atan1 ≠ 0) :
    diffusion_system cosf atan1 N M xi = some (closed_diffusion cosf atan1 N M xi) :=
  diffusion_system_eq cosf atan1 N M xi hN h

/-- The system of `ellip_1d` is its closed form. -/
theorem ellip_system_closed (cosf : α → α) (atan1 : α) (N M : Nat) (xi : Nat → α)
    (hN : 2 ≤ N) (h : M = 0 ∨ atan1 ≠ 0) :
    ellip_system cosf atan1 N M xi = some (closed_ellip cosf atan1 N M xi) :=
  ellip_system_eq cosf atan1 N M xi hN h

/-- The solution vector of `diffusion_1d` when no divisor of the sweep is zero. -/
theorem diffusion_solution_eq (cosf : α → α) (atan1 : α) (N M : Nat) (xi : Nat → α)
    (hN : 2 ≤ N) (h : M = 0 ∨ atan1 ≠ 0)
    (hd : ∀ i, i < N → denom (closed_diffusion cosf atan1 N M xi) i ≠ 0) :
    diffusion_solution cosf atan1 N M xi
      = some (fun j => if j < N then thomas (closed_diffusion cosf atan1 N M xi) (N - 1) j
          else (closed_diffusion cosf atan1 N M xi).d j) := by
  unfold diffusion_solution
  rw [diffusion_system_closed cosf atan1 N M xi hN h]
  exact tdma_inplace_eq N _ hN hd

/-- The solution vector of `ellip_1d` when no divisor of the sweep is zero. -/
theorem ellip_solution_eq (cosf : α → α) (atan1 : α) (N M : Nat) (xi : Nat → α)
    (hN : 2 ≤ N) (h : M = 0 ∨ atan1 ≠ 0)
    (hd : ∀ i, i < N → denom (closed_ellip cosf atan1 N M xi) i ≠ 0) :
    ellip_solution cosf atan1 N M xi
      = some (fun j => if j < N then thomas (closed_ellip cosf atan1 N M xi) (N - 1) j
          else 0) := by
  unfold ellip_solution
  rw [ellip_system_closed cosf atan1 N M xi hN h]
  exact tdma_star_eq N _ hN hd

end SolutionClosedForms

section PositiveField

variable {α : Type} [LinearOrderedField α]

/-- The grid spacing `h = 1/(N-1)` is positive. -/
theorem spacing_pos (N : Nat) (hN : 2 ≤ N) :
    (0 : α) < domain_length / ((N - 1 : Nat) : α) := by
  have h : (0 : α) < ((N - 1 : Nat) : α) := Nat.cast_pos.mpr (by omega)
  simpa [domain_length] using h

/-- With a positive diffusivity on the grid no divisor of the forward sweep of
`diffusion_1d` is zero. -/
theorem diffusion_denom_ne_zero (N : Nat) (k f : Nat → α) (hN : 2 ≤ N)
    (hk : ∀ j, j < N → 0 < k j) :
    ∀ i, i < N → denom (set_boundary N (interior_diffusion N (grid N) k f)) i ≠ 0 := by
  obtain ⟨_, hb0, hc0, _⟩ := set_boundary_zero N (interior_diffusion N (grid N) k f)
  obtain ⟨hal, hbl, _, _⟩ := set_boundary_last N (interior_diffusion N (grid N) k f)
  apply denom_ne_zero_of_dominant N _ hN hb0 hc0 hbl hal
  intro i hi1 hi
  obtain ⟨ea, ec, eb, _⟩ := diffusion_row N i k f hi1 hi
  have hh := spacing_pos (α := α) N hN
  have h5 : (0 : α) < 0.5 := by norm_num
  refine ⟨?_, ?_, eb⟩
  · rw [ea]
    exact div_pos (mul_pos h5 (add_pos (hk i (by omega)) (hk (i - 1) (by omega)))) hh
  · rw [ec]
    exact div_pos (mul_pos h5 (add_pos (hk (i + 1) hi) (hk i (by omega)))) hh

/-- With a positive diffusivity on the grid no divisor of the forward sweep of
`ellip_1d` is zero. -/
theorem ellip_denom_ne_zero (N : Nat) (k f : Nat → α) (hN : 2 ≤ N)
    (hk : ∀ j, j < N → 0 < k j) :
    ∀ i, i < N → denom (set_boundary N (interior_ellip N (grid N) k f)) i ≠ 0 := by
  obtain ⟨_, hb0, hc0, _⟩ := set_boundary_zero N (interior_ellip N (grid N) k f)
  obtain ⟨hal, hbl, _, _⟩ := set_boundary_last N (interior_ellip N (grid N) k f)
  apply denom_ne_zero_of_dominant N _ hN hb0 hc0 hbl hal
  intro i hi1 hi
  obtain ⟨ea, ec, eb, _⟩ := ellip_row N i k f hi1 hi
  have hh := spacing_pos (α := α) N hN
  have h5 : (0 : α) < 0.5 := by norm_num
  refine ⟨?_, ?_, eb⟩
  · rw [ea]
    exact div_pos
      (div_pos (mul_pos h5 (add_pos (hk i (by omega)) (hk (i - 1) (by omega)))) hh) hh
  · rw [ec]
    exact div_pos
      (div_pos (mul_pos h5 (add_pos (hk (i + 1) hi) (hk i (by omega)))) hh) hh

/-- Without uncertainties `diffusion_1d` computes the parabola `5·x·(1 - x)` at every
grid point. -/
theorem diffusion_solution_zero (cosf : α → α) (atan1 : α) (N : Nat) (xi : Nat → α)
    (hN : 2 ≤ N) :
    ∃ u, diffusion_solution cosf atan1 N 0 xi = some u ∧
      ∀ i, i < N → u i = 5 * ((i : α) / ((N - 1 : Nat) : α))
        * (1 - (i : α) / ((N - 1 : Nat) : α)) := by
  have hd := diffusion_denom_ne_zero N (karray cosf atan1 N 0 xi (grid N))
    (forcing N f_diffusion) hN (fun j hj => by rw [karray_zero _ _ _ _ _ _ hj]; exact one_pos)
  refine ⟨_, diffusion_solution_eq cosf atan1 N 0 xi hN (Or.inl rfl) hd, ?_⟩
  · intro i hi
    have hu := thomas_unique N _ _ hN hd
      (parabola_solves_diffusion cosf atan1 N xi f_diffusion hN) i hi
    simp only [hi, if_true, closed_diffusion]
    rw [hu]
    simp only [f_diffusion]
    norm_num

/-- Without uncertainties `ellip_1d` computes the parabola `x·(1 - x)/2` at every grid
point. -/
theorem ellip_solution_zero (cosf : α → α) (atan1 : α) (N : Nat) (xi : Nat → α)
    (hN : 2 ≤ N) :
    ∃ u, ellip_solution cosf atan1 N 0 xi = some u ∧
      ∀ i, i < N → u i = (1 / 2) * ((i : α) / ((N - 1 : Nat) : α))
        * (1 - (i : α) / ((N - 1 : Nat) : α)) := by
  have hd := ellip_denom_ne_zero N (karray cosf atan1 N 0 xi (grid N))
    (forcing N f_ellip) hN (fun j hj => by rw [karray_zero _ _ _ _ _ _ hj]; exact one_pos)
  refine ⟨_, ellip_solution_eq cosf atan1 N 0 xi hN (Or.inl rfl) hd, ?_⟩
  · intro i hi
    have hu := thomas_unique N _ _ hN hd
      (parabola_solves_ellip cosf atan1 N xi f_ellip hN) i hi
    simp only [hi, if_true, closed_ellip]
    rw [hu]
    simp only [f_ellip]
    norm_num

end PositiveField

section Midpoint

variable {α : Type} [LinearOrderedField α]

/-- Without uncertainties the value returned by `diffusion_1d` lies below the analytic
midpoint value `5/4` by at most `5/4·h²`, `h = 1/(N-1)`. -/
theorem diffusion_midpoint (cosf : α → α) (atan1 : α) (N : Nat) (xi : Nat → α)
    (hN : 2 ≤ N) :
    ∃ v, diffusion_1d cosf atan1 N 0 xi = some v ∧ 0 ≤ 5 / 4 - v ∧
      5 / 4 - v ≤ 5 / 4 * (1 / ((N : α) - 1)) ^ 2 := by
  obtain ⟨u, hu, hval⟩ := diffusion_solution_zero cosf atan1 N xi hN
  have hmid : N / 2 < N := by omega
  refine ⟨u (N / 2), by rw [diffusion_1d, hu, Option.map_some'], ?_⟩
  rw [hval (N / 2) hmid]
  have hcast : (((N - 1 : Nat) : α)) = (N : α) - 1 := by
    rw [Nat.cast_sub (by omega)]; simp
  rw [hcast]
  have hN1 : (1 : α) < (N : α) := by exact_mod_cast (by omega : 1 < N)
  have hH : (0 : α) < (N : α) - 1 := by linarith
  have hHne : (N : α) - 1 ≠ 0 := hH.ne'
  have key : 5 / 4 - 5 * (((N / 2 : Nat) : α) / ((N : α) - 1))
        * (1 - ((N / 2 : Nat) : α) / ((N : α) - 1))
      = 5 / 4 * (((N : α) - 1 - 2 * ((N / 2 : Nat) : α)) ^ 2) * (1 / ((N : α) - 1)) ^ 2 := by
    field_simp
    ring
  rw [key]
  have ht : ((N : α) - 1 - 2 * ((N / 2 : Nat) : α)) ^ 2 ≤ 1 := by
    rcases Nat.even_or_odd' N with ⟨q, hq | hq⟩
    · have e : N / 2 = q := by omega
      rw [e, hq]
      push_cast
      ring_nf
      exact le_refl _
    · have e : N / 2 = q := by omega
      rw [e, hq]
      push_cast
      ring_nf
      norm_num
  have hsq : (0 : α) ≤ (1 / ((N : α) - 1)) ^ 2 := sq_nonneg _
  have ht0 : (0 : α) ≤ ((N : α) - 1 - 2 * ((N / 2 : Nat) : α)) ^ 2 := sq_nonneg _
  constructor
  · positivity
  · calc 5 / 4 * (((N : α) - 1 - 2 * ((N / 2 : Nat) : α)) ^ 2) * (1 / ((N : α) - 1)) ^ 2
        ≤ 5 / 4 * 1 * (1 / ((N : α) - 1)) ^ 2 := by
          apply mul_le_mul_of_nonneg_right _ hsq
          exact mul_le_mul_of_nonneg_left ht (by norm_num)
      _ = 5 / 4 * (1 / ((N : α) - 1)) ^ 2 := by ring

end Midpoint

section Failure

variable {α : Type} [Field α] [DecidableEq α]

omit [Field α] [DecidableEq α] in
/-- Once a loop has failed, running it longer still fails. -/
theorem forUp_none_add {σ : Type} (body : Nat → σ → Option σ) (lo m : Nat) (s : σ)
    (h : forUp body lo m s = none) (k : Nat) : forUp body lo (m + k) s = none := by
  induction k with
  | zero => exact h
  | succ k ih => rw [← Nat.add_assoc, forUp_succ, ih]; rfl

/-- The forward sweep of `diffusion_1d` fails at the first zero divisor among the
steps `1 .. m`. -/
theorem forUp_sweep_inplace_none (s : Tridiag α) (m i : Nat) (hi1 : 1 ≤ i) (him : i ≤ m)
    (hlt : ∀ j, j < i → denom s j ≠ 0) (hz : denom s i = 0) :
    forUp (sweep_inplace s.a s.b) 1 m
        (Function.update s.c 0 (s.c 0 / s.b 0), Function.update s.d 0 (s.d 0 / s.b 0))
      = none := by
  obtain ⟨j, rfl⟩ : ∃ j, i = j + 1 := ⟨i - 1, by omega⟩
  obtain ⟨k, rfl⟩ : ∃ k, m = j + 1 + k := ⟨m - (j + 1), by omega⟩
  apply forUp_none_add
  rw [forUp_succ, forUp_sweep_inplace s j (fun t ht => hlt t (by omega)), Option.some_bind]
  have e : 1 + j = j + 1 := by omega
  have hzero : s.b (j + 1) - s.a (j + 1) * cprime s j = 0 := hz
  simp only [e, sweep_inplace, Nat.add_sub_cancel, le_refl, if_true, hzero, sdiv_zero, bind,
    Option.bind]

/-- The forward sweep of `ellip_1d` fails at the first zero divisor among the steps
`1 .. m`. -/
theorem forUp_sweep_star_none (s : Tridiag α) (m i : Nat) (hi1 : 1 ≤ i) (him : i ≤ m)
    (hlt : ∀ j, j < i → denom s j ≠ 0) (hz : denom s i = 0) :
    forUp (sweep_star s) 1 m
        (Function.update (fun _ => (0 : α)) 0 (s.c 0 / s.b 0),
         Function.update (fun _ => (0 : α)) 0 (s.d 0 / s.b 0))
      = none := by
  obtain ⟨j, rfl⟩ : ∃ j, i = j + 1 := ⟨i - 1, by omega⟩
  obtain ⟨k, rfl⟩ : ∃ k, m = j + 1 + k := ⟨m - (j + 1), by omega⟩
  apply forUp_none_add
  rw [forUp_succ, forUp_sweep_star s j (fun t ht => hlt t (by omega)), Option.some_bind]
  have e : 1 + j = j + 1 := by omega
  have hzero : s.b (j + 1) - s.a (j + 1) * cprime s j = 0 := hz
  simp only [e, sweep_star, Nat.add_sub_cancel, le_refl, if_true, hzero, sdiv_zero, bind,
    Option.bind]

omit [DecidableEq α] in
/-- A zero divisor has a first occurrence. -/
theorem first_zero_denom (s : Tridiag α) (i : Nat) (hz : denom s i = 0) :
    ∃ j, j ≤ i ∧ denom s j = 0 ∧ ∀ t, t < j → denom s t ≠ 0 := by
  classical
  have hex : ∃ j, denom s j = 0 := ⟨i, hz⟩
  exact ⟨Nat.find hex, Nat.find_min' hex hz, Nat.find_spec hex,
    fun t ht => Nat.find_min hex ht⟩

/-- The TDMA section of `diffusion_1d` has no result when a divisor of the forward
sweep is zero. -/
theorem tdma_inplace_none (N : Nat) (s : Tridiag α) (hN : 2 ≤ N) (i : Nat) (hi : i < N)
    (hz : denom s i = 0) : tdma_inplace N s = none := by
  obtain ⟨j, hji, hzj, hlt⟩ := first_zero_denom s i hz
  obtain ⟨n, rfl⟩ : ∃ n, N = n + 2 := ⟨N - 2, by omega⟩
  have e1 : n + 2 - 1 = n + 1 := rfl
  have e2 : n + 1 - 1 = n := rfl
  unfold tdma_inplace
  rw [e1]
  rcases Nat.eq_zero_or_pos j with hj0 | hjpos
  · subst hj0
    have hb : s.b 0 = 0 := hzj
    simp only [hb, sdiv_zero, bind, Option.bind]
  · have h0 : s.b 0 ≠ 0 := hlt 0 hjpos
    by_cases hjn : j ≤ n
    · simp only [bind, pure, e2, sdiv_of_ne _ h0, Option.bind,
        forUp_sweep_inplace_none s n j hjpos hjn hlt hzj]
    · have hj : j = n + 1 := by omega
      subst hj
      have hzero : s.b (n + 1) - s.a (n + 1) * cprime s n = 0 := hzj
      simp only [bind, pure, e2, sdiv_of_ne _ h0, Option.bind,
        forUp_sweep_inplace s n (fun t ht => hlt t (by omega)), le_refl, if_true, hzero,
        sdiv_zero]

/-- The TDMA section of `ellip_1d` has no result when a divisor of the forward sweep
is zero. -/
theorem tdma_star_none (N : Nat) (s : Tridiag α) (hN : 2 ≤ N) (i : Nat) (hi : i < N)
    (hz : denom s i = 0) : tdma_star N s = none := by
  obtain ⟨j, hji, hzj, hlt⟩ := first_zero_denom s i hz
  obtain ⟨n, rfl⟩ : ∃ n, N = n + 2 := ⟨N - 2, by omega⟩
  have e1 : n + 2 - 1 = n + 1 := rfl
  have e2 : n + 2 - 2 = n := rfl
  unfold tdma_star
  rw [e1, e2]
  rcases Nat.eq_zero_or_pos j with hj0 | hjpos
  · subst hj0
    have hb : s.b 0 = 0 := hzj
    simp only [hb, sdiv_zero, bind, Option.bind]
  · have h0 : s.b 0 ≠ 0 := hlt 0 hjpos
    by_cases hjn : j ≤ n
    · simp only [bind, pure, sdiv_of_ne _ h0, Option.bind,
        forUp_sweep_star_none s n j hjpos hjn hlt hzj]
    · have hj : j = n + 1 := by omega
      subst hj
      have hzero : s.b (n + 1) - s.a (n + 1) * cprime s n = 0 := hzj
      simp only [bind, pure, sdiv_of_ne _ h0, Option.bind,
        forUp_sweep_star s n (fun t ht => hlt t (by omega)), le_refl, if_true, hzero,
        sdiv_zero]

end Failure

section Scaling

variable {α : Type} [Field α]

/-- Dividing every row `i ≤ n` of a system by a non-zero weight `w i` leaves `c'` and
`d'` unchanged and divides the divisors of the forward sweep by `w i`. -/
theorem scaled_recurrences (s t : Tridiag α) (w : Nat → α) (n : Nat)
    (hw : ∀ i, i ≤ n → w i ≠ 0)
    (ha : ∀ i, i ≤ n → t.a i = s.a i / w i) (hb : ∀ i, i ≤ n → t.b i = s.b i / w i)
    (hc : ∀ i, i ≤ n → t.c i = s.c i / w i) (hd : ∀ i, i ≤ n → t.d i = s.d i / w i) :
    ∀ i, i ≤ n → cprime t i = cprime s i ∧ dprime t i = dprime s i ∧
      denom t i = denom s i / w i := by
  intro i
  induction i with
  | zero =>
    intro h0
    have hw0 := hw 0 h0
    refine ⟨?_, ?_, ?_⟩
    · simp only [cprime, hb 0 h0, hc 0 h0]
      exact div_div_div_cancel_right₀ hw0 _ _
    · simp only [dprime, hb 0 h0, hd 0 h0]
      exact div_div_div_cancel_right₀ hw0 _ _
    · simp only [denom, hb 0 h0]
  | succ j ih =>
    intro hj
    obtain ⟨ec, ed, _⟩ := ih (by omega)
    have hwj := hw (j + 1) hj
    have hden : denom t (j + 1) = denom s (j + 1) / w (j + 1) := by
      rw [denom_succ, denom_succ, hb _ hj, ha _ hj, ec]
      field_simp
    refine ⟨?_, ?_, hden⟩
    · rw [cprime_succ, cprime_succ, hden, hc _ hj]
      exact div_div_div_cancel_right₀ hwj _ _
    · simp only [dprime]
      rw [hden, hd _ hj, ha _ hj, ed]
      have e : s.d (j + 1) / w (j + 1) - s.a (j + 1) / w (j + 1) * dprime s j
          = (s.d (j + 1) - s.a (j + 1) * dprime s j) / w (j + 1) := by
        field_simp
      rw [e]
      exact div_div_div_cancel_right₀ hwj _ _

/-- The Thomas solution depends on `c'` and `d'` only. -/
theorem thomas_congr (s t : Tridiag α) (n : Nat)
    (h : ∀ i, i ≤ n → cprime t i = cprime s i ∧ dprime t i = dprime s i) :
    ∀ i, i ≤ n → thomas t n i = thomas s n i := by
  have key : ∀ k, k ≤ n → backfrom t n k = backfrom s n k := by
    intro k
    induction k with
    | zero =>
      intro _
      simp only [backfrom]
      exact (h n le_rfl).2
    | succ k ih =>
      intro hk
      simp only [backfrom]
      rw [ih (by omega), (h (n - (k + 1)) (by omega)).1, (h (n - (k + 1)) (by omega)).2]
  intro i hi
  exact key (n - i) (by omega)

end Scaling

/-! ## Lemmas on the boundary rows, the reduction and the real cosine field -/

section BoundaryAndReduction

/-- Identity boundary rows with right-hand side `0` give `u[0] = 0` and `u[N-1] = 0`. -/
theorem thomas_boundary {α : Type} [Field α] (N : Nat) (s : Tridiag α) (hN : 2 ≤ N)
    (hb0 : s.b 0 = 1) (hc0 : s.c 0 = 0) (hd0 : s.d 0 = 0)
    (hal : s.a (N - 1) = 0) (hdl : s.d (N - 1) = 0) :
    thomas s (N - 1) 0 = 0 ∧ thomas s (N - 1) (N - 1) = 0 := by
  obtain ⟨n, rfl⟩ : ∃ n, N = n + 2 := ⟨N - 2, by omega⟩
  have e1 : n + 2 - 1 = n + 1 := rfl
  rw [e1] at hal hdl ⊢
  constructor
  · rw [thomas_step s (Nat.succ_pos n)]
    simp [cprime, dprime, hb0, hc0, hd0]
  · rw [thomas_last]
    simp [dprime, hal, hdl]

/-- The reduction loop of `ellip_1d` is the sum `Σ_{i<N} u[i]·h`. -/
theorem sum_loop_eq {α : Type} [Field α] (N : Nat) (u : Nat → α) (h : α) :
    sum_loop N u h = ∑ i in Finset.range N, u i * h := by
  unfold sum_loop
  induction N with
  | zero => simp [loopUp]
  | succ n ih => rw [loopUp, ih, Nat.zero_add, Finset.sum_range_succ]

/-- For a vector that vanishes at both ends the rectangle sum is the trapezoidal sum. -/
theorem rectangle_eq_trapezoid {α : Type} [Field α] [CharZero α] (N : Nat) (u : Nat → α) (h : α) (hN : 1 ≤ N)
    (h0 : u 0 = 0) (hl : u (N - 1) = 0) :
    ∑ i in Finset.range N, u i * h
      = ∑ i in Finset.range (N - 1), h * (u i + u (i + 1)) / 2 := by
  obtain ⟨n, rfl⟩ : ∃ n, N = n + 1 := ⟨N - 1, by omega⟩
  rw [Nat.add_sub_cancel] at hl ⊢
  have hA : ∑ i in Finset.range (n + 1), u i = ∑ i in Finset.range n, u i := by
    rw [Finset.sum_range_succ, hl, add_zero]
  have hB : ∑ i in Finset.range (n + 1), u i = ∑ i in Finset.range n, u (i + 1) := by
    rw [Finset.sum_range_succ', h0, add_zero]
  have h2 : (2 : α) ≠ 0 := two_ne_zero
  rw [← Finset.sum_div, ← Finset.mul_sum, Finset.sum_add_distrib, ← hA, ← hB,
    ← Finset.sum_mul]
  field_simp
  ring

/-- The constant `atan(1.0)` of the C library is not zero. -/
theorem arctan_one_ne_zero : Real.arctan 1 ≠ 0 := by
  rw [Real.arctan_one]
  exact div_ne_zero Real.pi_ne_zero (by norm_num)

/-- The terms of the field loop, with `PI` expanded, are the cosine modes
`(σ/(j²π²))·cos(2πj·x)·ξ_j`, `j = 1 .. M`. -/
theorem kfield_real (M : Nat) (xi : Nat → ℝ) (xv : ℝ) :
    kfield Real.cos (Real.arctan 1) M xi xv
      = 1 + ∑ j in Finset.Icc (1 : Nat) M,
          (sigma / ((j : ℝ) ^ 2 * Real.pi ^ 2)) * Real.cos (2 * Real.pi * (j : ℝ) * xv)
            * xi (j - 1) := by
  unfold kfield
  congr 1
  induction M with
  | zero => simp
  | succ m ih =>
    rw [Finset.sum_range_succ, Finset.sum_Icc_succ_top (by omega), ih, Real.arctan_one]
    congr 1
    have hp : Real.pi ≠ 0 := Real.pi_ne_zero
    have hm : ((m : ℝ) + 1) ≠ 0 := Nat.cast_add_one_ne_zero m
    have e1 : 2 * 4 * (Real.pi / 4) * ((m : ℝ) + 1) * xv
        = 2 * Real.pi * ((m + 1 : Nat) : ℝ) * xv := by
      push_cast; ring
    rw [e1, Nat.add_sub_cancel]
    simp only [sigma]
    push_cast
    field_simp
    ring

/-- The uncertainty vector `ξ = (0, -4π²)`: its second cosine mode cancels the constant
`1` of the diffusivity at every point of the three-point grid. -/
theorem kfield_singular (j : Nat) (hj : j < 3) :
    kfield Real.cos (Real.arctan 1) 2
      (fun t => if t = 1 then -(4 * Real.pi ^ 2) else 0) (grid 3 j) = 0 := by
  have hp : Real.pi ≠ 0 := Real.pi_ne_zero
  rw [kfield_real]
  have hI : Finset.Icc (1 : Nat) 2 = {1, 2} := by decide
  rw [hI, Finset.sum_pair (by decide)]
  have hc : Real.cos (2 * Real.pi * ((2 : Nat) : ℝ) * grid 3 j) = 1 := by
    interval_cases j
    · simp [grid]
    · have e : 2 * Real.pi * ((2 : Nat) : ℝ) * grid 3 1 = 2 * Real.pi := by
        simp [grid, domain_length]
      rw [e, Real.cos_two_pi]
    · have e : 2 * Real.pi * ((2 : Nat) : ℝ) * grid 3 2 = 2 * Real.pi + 2 * Real.pi := by
        simp [grid, domain_length]; ring
      rw [e, Real.cos_add_two_pi, Real.cos_two_pi]
  rw [hc]
  simp only [sigma]
  norm_num
  field_simp
  ring

/-- At `ξ = (0, -4π²)` and `N = 3` the interior divisor of both systems is zero. -/
theorem denom_singular :
    denom (closed_diffusion Real.cos (Real.arctan 1) 3 2
        (fun t => if t = 1 then -(4 * Real.pi ^ 2) else 0)) 1 = 0 ∧
    denom (closed_ellip Real.cos (Real.arctan 1) 3 2
        (fun t => if t = 1 then -(4 * Real.pi ^ 2) else 0)) 1 = 0 := by
  have hk : ∀ j, j < 3 → karray Real.cos (Real.arctan 1) 3 2
      (fun t => if t = 1 then -(4 * Real.pi ^ 2) else 0) (grid 3) j = 0 := by
    intro j hj
    simp only [karray, hj, if_true]
    exact kfield_singular j hj
  constructor
  · obtain ⟨ea, ec, eb, _⟩ := diffusion_row (α := ℝ) 3 1
      (karray Real.cos (Real.arctan 1) 3 2
        (fun t => if t = 1 then -(4 * Real.pi ^ 2) else 0) (grid 3))
      (forcing 3 f_diffusion) (by decide) (by decide)
    rw [hk 1 (by decide), hk 0 (by decide)] at ea
    rw [hk 2 (by decide), hk 1 (by decide)] at ec
    rw [denom_succ, closed_diffusion, eb, ea, ec]
    simp
  · obtain ⟨ea, ec, eb, _⟩ := ellip_row (α := ℝ) 3 1
      (karray Real.cos (Real.arctan 1) 3 2
        (fun t => if t = 1 then -(4 * Real.pi ^ 2) else 0) (grid 3))
      (forcing 3 f_ellip) (by decide) (by decide)
    rw [hk 1 (by decide), hk 0 (by decide)] at ea
    rw [hk 2 (by decide), hk 1 (by decide)] at ec
    rw [denom_succ, closed_ellip, eb, ea, ec]
    simp

end BoundaryAndReduction

section SmallGrids

variable {α : Type} [Field α] [DecidableEq α]

omit [DecidableEq α] in
/-- With two grid points both rows are boundary rows and no divisor is zero. -/
theorem denom_two_points (s : Tridiag α) : ∀ i, i < 2 → denom (set_boundary 2 s) i ≠ 0 := by
  intro i hi
  obtain ⟨_, hb0, _, _⟩ := set_boundary_zero 2 s
  obtain ⟨hal, hbl, _, _⟩ := set_boundary_last 2 s
  have h : i = 0 ∨ i = 1 := by omega
  rcases h with rfl | rfl
  · simp [denom, hb0]
  · have e : (2 : Nat) - 1 = 0 + 1 := rfl
    rw [e] at hal hbl
    have : (1 : Nat) = 0 + 1 := rfl
    rw [this, denom_succ, hal, hbl]
    simp

/-- With two grid points `diffusion_1d` returns `0`. -/
theorem diffusion_1d_two [CharZero α] (cosf : α → α) (atan1 : α) (M : Nat) (xi : Nat → α)
    (h : M = 0 ∨ atan1 ≠ 0) : diffusion_1d cosf atan1 2 M xi = some 0 := by
  have hd := denom_two_points (interior_diffusion 2 (grid 2)
    (karray cosf atan1 2 M xi (grid 2)) (forcing 2 f_diffusion))
  obtain ⟨_, hb0, hc0, hd0⟩ := set_boundary_zero 2 (interior_diffusion 2 (grid 2)
    (karray cosf atan1 2 M xi (grid 2)) (forcing 2 f_diffusion))
  obtain ⟨hal, _, _, hdl⟩ := set_boundary_last 2 (interior_diffusion 2 (grid 2)
    (karray cosf atan1 2 M xi (grid 2)) (forcing 2 f_diffusion))
  have hb := thomas_boundary 2 _ (le_refl 2) hb0 hc0 hd0 hal hdl
  rw [diffusion_1d, diffusion_solution_eq cosf atan1 2 M xi (le_refl 2) h hd,
    Option.map_some']
  have e : (2 : Nat) / 2 = 2 - 1 := rfl
  have hlt : 2 - 1 < 2 := by decide
  simp only [e, hlt, if_true]
  exact congrArg some hb.2

/-- With two grid points `ellip_1d` returns `0`. -/
theorem ellip_1d_two [CharZero α] (cosf : α → α) (atan1 : α) (M : Nat) (xi : Nat → α)
    (h : M = 0 ∨ atan1 ≠ 0) : ellip_1d cosf atan1 2 M xi = some 0 := by
  have hd := denom_two_points (interior_ellip 2 (grid 2)
    (karray cosf atan1 2 M xi (grid 2)) (forcing 2 f_ellip))
  obtain ⟨_, hb0, hc0, hd0⟩ := set_boundary_zero 2 (interior_ellip 2 (grid 2)
    (karray cosf atan1 2 M xi (grid 2)) (forcing 2 f_ellip))
  obtain ⟨hal, _, _, hdl⟩ := set_boundary_last 2 (interior_ellip 2 (grid 2)
    (karray cosf atan1 2 M xi (grid 2)) (forcing 2 f_ellip))
  have hb := thomas_boundary 2 _ (le_refl 2) hb0 hc0 hd0 hal hdl
  have e1 : (2 : Nat) - 1 = 1 := rfl
  rw [e1] at hb
  unfold ellip_1d
  rw [ellip_solution_eq cosf atan1 2 M xi (le_refl 2) h hd, grid_spacing_eq 2 (le_refl 2)]
  simp only [bind, pure, Option.bind, sum_loop_eq, Finset.sum_range_succ,
    Finset.sum_range_zero, e1]
  simp [closed_ellip, hb.1, hb.2]

end SmallGrids

section ParabolaSum

variable {α : Type} [Field α] [CharZero α]

/-- The rectangle sum of the parabola `x·(1 - x)/2` over the first `m` points of a grid
of spacing `t`. -/
theorem parabola_sum (t : α) (m : Nat) :
    ∑ i in Finset.range m, (1 / 2) * ((i : α) * t) * (1 - (i : α) * t) * t
      = t ^ 2 * ((m : α) * ((m : α) - 1) / 4)
        - t ^ 3 * (((m : α) - 1) * (m : α) * (2 * (m : α) - 1) / 12) := by
  induction m with
  | zero => simp
  | succ m ih =>
    rw [Finset.sum_range_succ, ih]
    push_cast
    ring

end ParabolaSum

section Basel

/-- Every partial sum of `Σ 1/(k+1)²` lies strictly below `π²/6`. -/
theorem inv_sq_partial_lt (M : Nat) :
    ∑ k in Finset.range M, 1 / (((k : ℝ) + 1) ^ 2) < Real.pi ^ 2 / 6 := by
  have hle : ∑ n in Finset.range (M + 2), (1 : ℝ) / (n : ℝ) ^ 2 ≤ Real.pi ^ 2 / 6 :=
    sum_le_hasSum _ (fun n _ => by positivity) hasSum_zeta_two
  rw [Finset.sum_range_succ, Finset.sum_range_succ'] at hle
  have hpos : (0 : ℝ) < 1 / (((M + 1 : Nat) : ℝ)) ^ 2 := by positivity
  have e : ∑ k in Finset.range M, (1 : ℝ) / (((k + 1 : Nat) : ℝ)) ^ 2
      = ∑ k in Finset.range M, 1 / (((k : ℝ) + 1) ^ 2) := by
    apply Finset.sum_congr rfl
    intro k _
    push_cast
    rfl
  rw [e] at hle
  simp only [Nat.cast_zero, ne_eq, OfNat.ofNat_ne_zero, not_false_eq_true, zero_pow,
    div_zero, add_zero] at hle
  linarith

/-- With `|ξ_j| ≤ 1` the cosine modes move the diffusivity by less than `1/6`. -/
theorem kfield_real_bound (M : Nat) (xi : Nat → ℝ) (xv : ℝ)
    (hxi : ∀ j, j < M → |xi j| ≤ 1) :
    |kfield Real.cos (Real.arctan 1) M xi xv - 1| < 1 / 6 := by
  have hp : (0 : ℝ) < Real.pi := Real.pi_pos
  have hterm : ∀ k, k ∈ Finset.range M →
      |sigma * (1 / (((k : ℝ) + 1) * ((k : ℝ) + 1) * 4 * Real.arctan 1 * 4 * Real.arctan 1)
          * Real.cos (2 * 4 * Real.arctan 1 * ((k : ℝ) + 1) * xv) * xi k)|
        ≤ 1 / Real.pi ^ 2 * (1 / (((k : ℝ) + 1) ^ 2)) := by
    intro k hk
    have hk1 : (0 : ℝ) < (k : ℝ) + 1 := by positivity
    have hq : (1 : ℝ) / (((k : ℝ) + 1) * ((k : ℝ) + 1) * 4 * Real.arctan 1 * 4 * Real.arctan 1)
        = 1 / Real.pi ^ 2 * (1 / (((k : ℝ) + 1) ^ 2)) := by
      rw [Real.arctan_one]
      field_simp
      ring
    have hq0 : (0 : ℝ) ≤ 1 / Real.pi ^ 2 * (1 / (((k : ℝ) + 1) ^ 2)) := by positivity
    rw [hq]
    simp only [sigma, one_mul]
    rw [abs_mul, abs_mul, abs_of_nonneg hq0]
    have hc := Real.abs_cos_le_one (2 * 4 * Real.arctan 1 * ((k : ℝ) + 1) * xv)
    have hx := hxi k (Finset.mem_range.mp hk)
    calc 1 / Real.pi ^ 2 * (1 / (((k : ℝ) + 1) ^ 2))
          * |Real.cos (2 * 4 * Real.arctan 1 * ((k : ℝ) + 1) * xv)| * |xi k|
        ≤ 1 / Real.pi ^ 2 * (1 / (((k : ℝ) + 1) ^ 2)) * 1 * 1 := by
          apply mul_le_mul _ hx (abs_nonneg _) (by positivity)
          exact mul_le_mul_of_nonneg_left hc hq0
      _ = 1 / Real.pi ^ 2 * (1 / (((k : ℝ) + 1) ^ 2)) := by ring
  unfold kfield
  rw [add_sub_cancel_left]
  calc |∑ k in Finset.range M,
          sigma * (1 / (((k : ℝ) + 1) * ((k : ℝ) + 1) * 4 * Real.arctan 1 * 4 * Real.arctan 1)
            * Real.cos (2 * 4 * Real.arctan 1 * ((k : ℝ) + 1) * xv) * xi k)|
      ≤ ∑ k in Finset.range M,
          |sigma * (1 / (((k : ℝ) + 1) * ((k : ℝ) + 1) * 4 * Real.arctan 1 * 4 * Real.arctan 1)
            * Real.cos (2 * 4 * Real.arctan 1 * ((k : ℝ) + 1) * xv) * xi k)| :=
        Finset.abs_sum_le_sum_abs _ _
    _ ≤ ∑ k in Finset.range M, 1 / Real.pi ^ 2 * (1 / (((k : ℝ) + 1) ^ 2)) :=
        Finset.sum_le_sum hterm
    _ = 1 / Real.pi ^ 2 * ∑ k in Finset.range M, 1 / (((k : ℝ) + 1) ^ 2) := by
        rw [Finset.mul_sum]
    _ < 1 / Real.pi ^ 2 * (Real.pi ^ 2 / 6) :=
        mul_lt_mul_of_pos_left (inv_sq_partial_lt M) (by positivity)
    _ = 1 / 6 := by
        field_simp

end Basel

section Reflection

variable {α : Type} [Field α]

/-- A system with identity boundary rows whose interior rows are mirror images of one
another (`a[i] = c[N-1-i]`, `b[i] = b[N-1-i]`, `d[i] = d[N-1-i]`) has a mirror-symmetric
Thomas solution, provided no divisor of the sweep is zero. -/
theorem thomas_reflect (N : Nat) (s : Tridiag α) (hN : 2 ≤ N)
    (hd : ∀ i, i < N → denom s i ≠ 0)
    (hb0 : s.b 0 = 1) (hc0 : s.c 0 = 0) (hd0 : s.d 0 = 0)
    (hal : s.a (N - 1) = 0) (hbl : s.b (N - 1) = 1) (hdl : s.d (N - 1) = 0)
    (hsym : ∀ i, 1 ≤ i → i + 1 < N →
      s.a i = s.c (N - 1 - i) ∧ s.b i = s.b (N - 1 - i) ∧ s.c i = s.a (N - 1 - i) ∧
        s.d i = s.d (N - 1 - i)) :
    ∀ i, i < N → thomas s (N - 1) i = thomas s (N - 1) (N - 1 - i) := by
  obtain ⟨u0, ul⟩ := thomas_boundary N s hN hb0 hc0 hd0 hal hdl
  obtain ⟨_, h2, _⟩ := thomas_solves N s hN hd
  have hv : Solves N s (fun i => thomas s (N - 1) (N - 1 - i)) := by
    refine ⟨?_, ?_, ?_⟩
    · simp only [Nat.sub_zero, hb0, hc0, hd0, ul]
      ring
    · intro i hi1 hi2
      obtain ⟨ea, eb, ec, ed⟩ := hsym i hi1 (by omega)
      have hj := h2 (N - 1 - i) (by omega) (by omega)
      have e1 : N - 1 - (i - 1) = N - 1 - i + 1 := by omega
      have e2 : N - 1 - (i + 1) = N - 1 - i - 1 := by omega
      simp only [e1, e2, ea, eb, ec, ed]
      linear_combination hj
    · have e1 : N - 1 - (N - 1) = 0 := by omega
      simp only [e1, hal, hbl, hdl, u0]
      ring
  intro i hi
  exact thomas_unique N s _ hN hd hv i hi

end Reflection

section FieldSymmetry

/-- The cosine field is symmetric about `x = 1/2`: every mode has an integer number of
periods on `[0, 1]`. -/
theorem kfield_real_reflect (M : Nat) (xi : Nat → ℝ) (xv : ℝ) :
    kfield Real.cos (Real.arctan 1) M xi (1 - xv)
      = kfield Real.cos (Real.arctan 1) M xi xv := by
  unfold kfield
  congr 1
  apply Finset.sum_congr rfl
  intro k _
  have e : 2 * 4 * Real.arctan 1 * ((k : ℝ) + 1) * (1 - xv)
      = ((k + 1 : Nat) : ℝ) * (2 * Real.pi)
        - 2 * 4 * Real.arctan 1 * ((k : ℝ) + 1) * xv := by
    rw [Real.arctan_one]
    push_cast
    ring
  rw [e, Real.cos_nat_mul_two_pi_sub]

/-- The mirror image of a grid point: `x[N-1-i] = 1 - x[i]`. -/
theorem grid_reflect (N i : Nat) (hN : 2 ≤ N) (hi : i < N) :
    grid (α := ℝ) N (N - 1 - i) = 1 - grid N i := by
  have hH : (((N - 1 : Nat) : ℝ)) ≠ 0 := Nat.cast_ne_zero.mpr (by omega)
  rw [grid_apply N (N - 1 - i) (by omega), grid_apply N i hi,
    Nat.cast_sub (by omega : i ≤ N - 1)]
  simp only [domain_length]
  generalize (((N - 1 : Nat) : ℝ)) = H at hH ⊢
  field_simp

/-- The diffusivity array is mirror-symmetric on the grid. -/
theorem karray_reflect (N M i : Nat) (xi : Nat → ℝ) (hN : 2 ≤ N) (hi : i < N) :
    karray Real.cos (Real.arctan 1) N M xi (grid N) i
      = karray Real.cos (Real.arctan 1) N M xi (grid N) (N - 1 - i) := by
  have hi2 : N - 1 - i < N := by omega
  simp only [karray, hi, hi2, if_true]
  rw [grid_reflect N i hN hi, kfield_real_reflect]

end FieldSymmetry

section RowSymmetry

variable {α : Type} [Field α] [CharZero α]

/-- With a mirror-symmetric diffusivity array and a constant forcing the interior rows of
the system of `diffusion_1d` are mirror images of one another. -/
theorem diffusion_rows_reflect (N : Nat) (k : Nat → α) (f0 : α)
    (hk : ∀ i, i < N → k i = k (N - 1 - i)) :
    ∀ i, 1 ≤ i → i + 1 < N →
      (set_boundary N (interior_diffusion N (grid N) k (forcing N f0))).a i
        = (set_boundary N (interior_diffusion N (grid N) k (forcing N f0))).c (N - 1 - i) ∧
      (set_boundary N (interior_diffusion N (grid N) k (forcing N f0))).b i
        = (set_boundary N (interior_diffusion N (grid N) k (forcing N f0))).b (N - 1 - i) ∧
      (set_boundary N (interior_diffusion N (grid N) k (forcing N f0))).c i
        = (set_boundary N (interior_diffusion N (grid N) k (forcing N f0))).a (N - 1 - i) ∧
      (set_boundary N (interior_diffusion N (grid N) k (forcing N f0))).d i
        = (set_boundary N (interior_diffusion N (grid N) k (forcing N f0))).d (N - 1 - i) := by
  intro i hi1 hi
  obtain ⟨ea, ec, eb, ed⟩ := diffusion_row N i k (forcing N f0) hi1 hi
  obtain ⟨ea', ec', eb', ed'⟩ := diffusion_row N (N - 1 - i) k (forcing N f0)
    (by omega) (by omega)
  have e1 : N - 1 - i + 1 = N - 1 - (i - 1) := by omega
  have e2 : N - 1 - i - 1 = N - 1 - (i + 1) := by omega
  have hac : (set_boundary N (interior_diffusion N (grid N) k (forcing N f0))).a i
      = (set_boundary N (interior_diffusion N (grid N) k (forcing N f0))).c (N - 1 - i) := by
    rw [ea, ec', e1, ← hk (i - 1) (by omega), ← hk i (by omega), add_comm]
  have hca : (set_boundary N (interior_diffusion N (grid N) k (forcing N f0))).c i
      = (set_boundary N (interior_diffusion N (grid N) k (forcing N f0))).a (N - 1 - i) := by
    rw [ec, ea', e2, ← hk (i + 1) (by omega), ← hk i (by omega), add_comm]
  refine ⟨hac, ?_, hca, ?_⟩
  · rw [eb, eb', hac, hca, add_comm]
  · rw [ed, ed', forcing_apply N i f0 (by omega), forcing_apply N (N - 1 - i) f0 (by omega)]

/-- With a mirror-symmetric diffusivity array and a constant forcing the interior rows
of the system of `ellip_1d` are mirror images of one another. -/
theorem ellip_rows_reflect (N : Nat) (k : Nat → α) (f0 : α)
    (hk : ∀ i, i < N → k i = k (N - 1 - i)) :
    ∀ i, 1 ≤ i → i + 1 < N →
      (set_boundary N (interior_ellip N (grid N) k (forcing N f0))).a i
        = (set_boundary N (interior_ellip N (grid N) k (forcing N f0))).c (N - 1 - i) ∧
      (set_boundary N (interior_ellip N (grid N) k (forcing N f0))).b i
        = (set_boundary N (interior_ellip N (grid N) k (forcing N f0))).b (N - 1 - i) ∧
      (set_boundary N (interior_ellip N (grid N) k (forcing N f0))).c i
        = (set_boundary N (interior_ellip N (grid N) k (forcing N f0))).a (N - 1 - i) ∧
      (set_boundary N (interior_ellip N (grid N) k (forcing N f0))).d i
        = (set_boundary N (interior_ellip N (grid N) k (forcing N f0))).d (N - 1 - i) := by
  intro i hi1 hi
  obtain ⟨ea, ec, eb, ed⟩ := ellip_row N i k (forcing N f0) hi1 hi
  obtain ⟨ea', ec', eb', ed'⟩ := ellip_row N (N - 1 - i) k (forcing N f0)
    (by omega) (by omega)
  have e1 : N - 1 - i + 1 = N - 1 - (i - 1) := by omega
  have e2 : N - 1 - i - 1 = N - 1 - (i + 1) := by omega
  have hac : (set_boundary N (interior_ellip N (grid N) k (forcing N f0))).a i
      = (set_boundary N (interior_ellip N (grid N) k (forcing N f0))).c (N - 1 - i) := by
    rw [ea, ec', e1, ← hk (i - 1) (by omega), ← hk i (by omega), add_comm]
  have hca : (set_boundary N (interior_ellip N (grid N) k (forcing N f0))).c i
      = (set_boundary N (interior_ellip N (grid N) k (forcing N f0))).a (N - 1 - i) := by
    rw [ec, ea', e2, ← hk (i + 1) (by omega), ← hk i (by omega), add_comm]
  refine ⟨hac, ?_, hca, ?_⟩
  · rw [eb, eb', hac, hca, add_comm]
  · rw [ed, ed', forcing_apply N i f0 (by omega), forcing_apply N (N - 1 - i) f0 (by omega)]

end RowSymmetry

section UnitMode

/-- The uncertainty vector `ξ = (1, 0, 0, ...)` keeps the diffusivity positive, so no
divisor of either sweep is zero on four grid points. -/
theorem denom_ne_zero_unit_mode :
    (∀ i, i < 4 → denom (closed_diffusion Real.cos (Real.arctan 1) 4 1
      (fun _ => (1 : ℝ))) i ≠ 0) ∧
    (∀ i, i < 4 → denom (closed_ellip Real.cos (Real.arctan 1) 4 1
      (fun _ => (1 : ℝ))) i ≠ 0) := by
  have hpos : ∀ j, j < 4 →
      0 < karray Real.cos (Real.arctan 1) 4 1 (fun _ => (1 : ℝ)) (grid 4) j := by
    intro j hj
    simp only [karray, hj, if_true]
    have hb := kfield_real_bound 1 (fun _ => (1 : ℝ)) (grid 4 j) (fun _ _ => by simp)
    have h2 := abs_lt.mp hb
    linarith [h2.1]
  exact ⟨diffusion_denom_ne_zero 4 _ _ (by decide) hpos,
    ellip_denom_ne_zero 4 _ _ (by decide) hpos⟩

end UnitMode

/-! ## The claims -/

section Claims

/-- C1 (Thomas solver correctness): for `N ≥ 2` and arrays `a`, `b`, `c`, `d` with
`b[0] ≠ 0` and every forward-sweep divisor `b[i] - a[i]·c'[i-1]`, `1 ≤ i ≤ N-1`,
non-zero, both the in-place TDMA section of `diffusion_1d` and the
`c_star`/`d_star` TDMA section of `ellip_1d` return a vector `u` that satisfies
every equation of the tridiagonal system: row `0`, the rows `1 ≤ i ≤ N-2` and
row `N-1`. -/
theorem C1_thomas_solver_correct {α : Type} [Field α] [DecidableEq α] (N : Nat)
    (a b c d : Nat → α) (hN : 2 ≤ N)
    (hb0 : b 0 ≠ 0)
    (hden : ∀ i, 1 ≤ i → i < N → b i - a i * cprime ⟨a, b, c, d⟩ (i - 1) ≠ 0) :
    (∃ u, tdma_inplace N ⟨a, b, c, d⟩ = some u ∧
      b 0 * u 0 + c 0 * u 1 = d 0 ∧
      (∀ i, 1 ≤ i → i + 2 ≤ N → a i * u (i - 1) + b i * u i + c i * u (i + 1) = d i) ∧
      a (N - 1) * u (N - 2) + b (N - 1) * u (N - 1) = d (N - 1)) ∧
    (∃ u, tdma_star N ⟨a, b, c, d⟩ = some u ∧
      b 0 * u 0 + c 0 * u 1 = d 0 ∧
      (∀ i, 1 ≤ i → i + 2 ≤ N → a i * u (i - 1) + b i * u i + c i * u (i + 1) = d i) ∧
      a (N - 1) * u (N - 2) + b (N - 1) * u (N - 1) = d (N - 1)) := by
  have hd := denom_ne_zero_of N ⟨a, b, c, d⟩ hb0 hden
  have hs := thomas_solves N ⟨a, b, c, d⟩ hN hd
  constructor
  · refine ⟨_, tdma_inplace_eq N _ hN hd, ?_⟩
    exact Solves_congr N ⟨a, b, c, d⟩ _
      (fun j => if j < N then thomas ⟨a, b, c, d⟩ (N - 1) j else d j) hN
      (fun i hi => by simp [hi]) hs
  · refine ⟨_, tdma_star_eq N _ hN hd, ?_⟩
    exact Solves_congr N ⟨a, b, c, d⟩ _
      (fun j => if j < N then thomas ⟨a, b, c, d⟩ (N - 1) j else 0) hN
      (fun i hi => by simp [hi]) hs

/-- Witness of C1: the `3 × 3` system with `a = c = 1`, `b = 2` and `d = (1, 2, 3)`
over `ℚ` meets the hypotheses. -/
theorem C1_thomas_solver_correct_witness :
    (∃ u : Nat → ℚ, tdma_inplace 3 ⟨fun _ => 1, fun _ => 2, fun _ => 1, fun i => (i : ℚ) + 1⟩
        = some u ∧
      2 * u 0 + 1 * u 1 = 1 ∧
      (∀ i, 1 ≤ i → i + 2 ≤ 3 → 1 * u (i - 1) + 2 * u i + 1 * u (i + 1) = (i : ℚ) + 1) ∧
      1 * u (3 - 2) + 2 * u (3 - 1) = ((3 - 1 : Nat) : ℚ) + 1) ∧
    (∃ u : Nat → ℚ, tdma_star 3 ⟨fun _ => 1, fun _ => 2, fun _ => 1, fun i => (i : ℚ) + 1⟩
        = some u ∧
      2 * u 0 + 1 * u 1 = 1 ∧
      (∀ i, 1 ≤ i → i + 2 ≤ 3 → 1 * u (i - 1) + 2 * u i + 1 * u (i + 1) = (i : ℚ) + 1) ∧
      1 * u (3 - 2) + 2 * u (3 - 1) = ((3 - 1 : Nat) : ℚ) + 1) := by
  have h := C1_thomas_solver_correct (α := ℚ) 3 (fun _ => 1) (fun _ => 2) (fun _ => 1)
    (fun i => (i : ℚ) + 1) (by decide) (by norm_num)
    (by
      intro i h1 h2
      interval_cases i <;> norm_num [cprime])
  simpa using h

/-- Counterexample to C2 as stated: for `N = 3`, `M = 2` and the uncertainty vector
`ξ = (0, -4π²)` the diffusivity vanishes on the grid, the sweep divides by zero at row
`1`, and neither `diffusion_1d` nor `ellip_1d` has a solution vector, so none with
`u[0] = 0` and `u[N-1] = 0`. -/
theorem C2_counterexample :
    diffusion_solution Real.cos (Real.arctan 1) 3 2
        (fun t => if t = 1 then -(4 * Real.pi ^ 2) else 0) = none ∧
    ellip_solution Real.cos (Real.arctan 1) 3 2
        (fun t => if t = 1 then -(4 * Real.pi ^ 2) else 0) = none ∧
    ¬ ∃ u, diffusion_solution Real.cos (Real.arctan 1) 3 2
        (fun t => if t = 1 then -(4 * Real.pi ^ 2) else 0) = some u ∧
        u 0 = 0 ∧ u (3 - 1) = 0 := by
  have hD : diffusion_solution Real.cos (Real.arctan 1) 3 2
      (fun t => if t = 1 then -(4 * Real.pi ^ 2) else 0) = none := by
    unfold diffusion_solution
    rw [diffusion_system_closed _ _ 3 2 _ (by decide) (Or.inr arctan_one_ne_zero)]
    exact tdma_inplace_none 3 _ (by decide) 1 (by decide) denom_singular.1
  have hE : ellip_solution Real.cos (Real.arctan 1) 3 2
      (fun t => if t = 1 then -(4 * Real.pi ^ 2) else 0) = none := by
    unfold ellip_solution
    rw [ellip_system_closed _ _ 3 2 _ (by decide) (Or.inr arctan_one_ne_zero)]
    exact tdma_star_none 3 _ (by decide) 1 (by decide) denom_singular.2
  refine ⟨hD, hE, ?_⟩
  rintro ⟨u, hu, _⟩
  rw [hD] at hu
  exact Option.noConfusion hu

/-- C2, amended (Dirichlet boundary values): for `N ≥ 3` and every uncertainty vector
for which no divisor of the forward sweep of the assembled system is zero, the
solution vector of `diffusion_1d`, and likewise of `ellip_1d`, exists and satisfies
`u[0] = 0` and `u[N-1] = 0`. -/
theorem C2_dirichlet_boundary (N M : Nat) (xi : Nat → ℝ) (hN : 3 ≤ N)
    (hD : ∀ s, diffusion_system Real.cos (Real.arctan 1) N M xi = some s →
      ∀ i, i < N → denom s i ≠ 0)
    (hE : ∀ s, ellip_system Real.cos (Real.arctan 1) N M xi = some s →
      ∀ i, i < N → denom s i ≠ 0) :
    (∃ u, diffusion_solution Real.cos (Real.arctan 1) N M xi = some u ∧
      u 0 = 0 ∧ u (N - 1) = 0) ∧
    (∃ u, ellip_solution Real.cos (Real.arctan 1) N M xi = some u ∧
      u 0 = 0 ∧ u (N - 1) = 0) := by
  have h2 : 2 ≤ N := by omega
  have ha := Or.inr (a := M = 0) arctan_one_ne_zero
  have hdD := hD _ (diffusion_system_closed _ _ N M xi h2 ha)
  have hdE := hE _ (ellip_system_closed _ _ N M xi h2 ha)
  have h0 : 0 < N := by omega
  have hl : N - 1 < N := by omega
  constructor
  · refine ⟨_, diffusion_solution_eq _ _ N M xi h2 ha hdD, ?_⟩
    obtain ⟨_, hb0, hc0, hd0⟩ := set_boundary_zero N (interior_diffusion N (grid N)
      (karray Real.cos (Real.arctan 1) N M xi (grid N)) (forcing N f_diffusion))
    obtain ⟨hal, _, _, hdl⟩ := set_boundary_last N (interior_diffusion N (grid N)
      (karray Real.cos (Real.arctan 1) N M xi (grid N)) (forcing N f_diffusion))
    simp only [h0, hl, if_true]
    exact thomas_boundary N _ h2 hb0 hc0 hd0 hal hdl
  · refine ⟨_, ellip_solution_eq _ _ N M xi h2 ha hdE, ?_⟩
    obtain ⟨_, hb0, hc0, hd0⟩ := set_boundary_zero N (interior_ellip N (grid N)
      (karray Real.cos (Real.arctan 1) N M xi (grid N)) (forcing N f_ellip))
    obtain ⟨hal, _, _, hdl⟩ := set_boundary_last N (interior_ellip N (grid N)
      (karray Real.cos (Real.arctan 1) N M xi (grid N)) (forcing N f_ellip))
    simp only [h0, hl, if_true]
    exact thomas_boundary N _ h2 hb0 hc0 hd0 hal hdl

/-- Witness of the amended C2: four grid points, no uncertainty; the diffusivity is
`1`, so no divisor vanishes. -/
theorem C2_dirichlet_boundary_witness :
    (∃ u, diffusion_solution Real.cos (Real.arctan 1) 4 0 (fun _ => (0 : ℝ)) = some u ∧
      u 0 = 0 ∧ u (4 - 1) = 0) ∧
    (∃ u, ellip_solution Real.cos (Real.arctan 1) 4 0 (fun _ => (0 : ℝ)) = some u ∧
      u 0 = 0 ∧ u (4 - 1) = 0) :=
  C2_dirichlet_boundary 4 0 (fun _ => 0) (by decide)
    (fun s hs => by
      rw [diffusion_system_eq _ _ 4 0 _ (by decide) (Or.inl rfl)] at hs
      cases hs
      exact diffusion_denom_ne_zero 4 _ _ (by decide)
        (fun j hj => by rw [karray_zero _ _ _ _ _ _ hj]; exact one_pos))
    (fun s hs => by
      rw [ellip_system_eq _ _ 4 0 _ (by decide) (Or.inl rfl)] at hs
      cases hs
      exact ellip_denom_ne_zero 4 _ _ (by decide)
        (fun j hj => by rw [karray_zero _ _ _ _ _ _ hj]; exact one_pos))

/-- C3 (concrete scenario): `diffusion_1d` with `num_grid_points = 3` and
`num_uncertainties = 0` builds the grid `[0, 0.5, 1]`, the diffusivity `[1, 1, 1]`, the
interior row `a[1] = 2`, `b[1] = -4`, `c[1] = 2`, `d[1] = -5`, and returns `1.25`. -/
theorem C3_three_point_scenario {α : Type} [LinearOrderedField α] (cosf : α → α)
    (atan1 : α) (xi : Nat → α) :
    (∃ x, x_points 3 = some x ∧ (x 0 = 0 ∧ x 1 = 0.5 ∧ x 2 = 1) ∧
      ∃ k, k_coefficients cosf atan1 3 0 xi x = some k ∧ k 0 = 1 ∧ k 1 = 1 ∧ k 2 = 1) ∧
    (∃ s, diffusion_system cosf atan1 3 0 xi = some s ∧
      s.a 1 = 2 ∧ s.b 1 = -4 ∧ s.c 1 = 2 ∧ s.d 1 = -5) ∧
    diffusion_1d cosf atan1 3 0 xi = some 1.25 := by
  have hsys := diffusion_system_eq cosf atan1 3 0 xi (by decide) (Or.inl rfl)
  refine ⟨⟨_, x_points_eq 3 (by decide), ?_, _,
    k_coefficients_eq cosf atan1 3 0 xi _ (Or.inl rfl), ?_⟩, ⟨_, hsys, ?_⟩, ?_⟩
  · simp [grid, domain_length]; norm_num
  · simp [karray, kfield]
  · simp [set_boundary, interior_diffusion, Function.update, grid, karray, kfield, forcing,
      f_diffusion, domain_length]
    norm_num
  · obtain ⟨u, hu, hval⟩ := diffusion_solution_zero cosf atan1 3 xi (by decide)
    rw [diffusion_1d, hu, Option.map_some', hval 1 (by decide)]
    norm_num

/-- C4 (second-order convergence of the midpoint output): with `num_uncertainties = 0`
the value returned by `diffusion_1d` is within `1.25·h²`, `h = 1/(N-1)`, of the analytic
midpoint value `1.25` for every `N ≥ 3`, and it converges to `1.25` as `N` grows. -/
theorem C4_midpoint_second_order (xi : Nat → ℝ) :
    (∀ N, 3 ≤ N → ∃ v, diffusion_1d Real.cos (Real.arctan 1) N 0 xi = some v ∧
      |v - 1.25| ≤ 1.25 * (1 / ((N : ℝ) - 1)) ^ 2) ∧
    Filter.Tendsto (fun N => (diffusion_1d Real.cos (Real.arctan 1) N 0 xi).getD 0)
      Filter.atTop (nhds 1.25) := by
  have hb : ∀ N, 3 ≤ N → ∃ v, diffusion_1d Real.cos (Real.arctan 1) N 0 xi = some v ∧
      |v - 1.25| ≤ 1.25 * (1 / ((N : ℝ) - 1)) ^ 2 := by
    intro N hN
    obtain ⟨v, hv, h0, h1⟩ := diffusion_midpoint Real.cos (Real.arctan 1) N xi (by omega)
    refine ⟨v, hv, ?_⟩
    have e : (1.25 : ℝ) = 5 / 4 := by norm_num
    rw [e, abs_sub_comm, abs_of_nonneg h0]
    exact h1
  refine ⟨hb, ?_⟩
  rw [Metric.tendsto_atTop]
  intro ε hε
  refine ⟨Nat.ceil (1.25 / ε) + 3, fun n hn => ?_⟩
  obtain ⟨v, hv, hle⟩ := hb n (by omega)
  simp only [hv, Option.getD_some, Real.dist_eq]
  have hc : 1.25 / ε ≤ (Nat.ceil (1.25 / ε) : ℝ) := Nat.le_ceil _
  have hn1 : ((Nat.ceil (1.25 / ε) : ℝ)) + 3 ≤ (n : ℝ) := by exact_mod_cast hn
  have hq : (0 : ℝ) ≤ 1.25 / ε := by positivity
  have hH : (1 : ℝ) ≤ (n : ℝ) - 1 := by linarith
  have hHpos : (0 : ℝ) < (n : ℝ) - 1 := by linarith
  have hlt : 1.25 / ε < (n : ℝ) - 1 := by linarith
  have h1 : 1.25 < ((n : ℝ) - 1) * ε := by
    rwa [div_lt_iff₀ hε] at hlt
  have h2 : 1.25 * (1 / ((n : ℝ) - 1)) ^ 2 ≤ 1.25 / ((n : ℝ) - 1) := by
    rw [one_div, inv_pow, ← div_eq_mul_inv]
    apply div_le_div_of_nonneg_left (by norm_num) hHpos
    nlinarith
  have h3 : 1.25 / ((n : ℝ) - 1) < ε := by
    rw [div_lt_iff₀ hHpos]
    linarith
  linarith

/-- Witness of C4: the bound at four grid points. -/
theorem C4_midpoint_second_order_witness :
    ∃ v, diffusion_1d Real.cos (Real.arctan 1) 4 0 (fun _ => (0 : ℝ)) = some v ∧
      |v - 1.25| ≤ 1.25 * (1 / (((4 : Nat) : ℝ) - 1)) ^ 2 :=
  (C4_midpoint_second_order (fun _ => 0)).1 4 (by decide)

/-- C5 (diffusivity formula): for `N ≥ 2`, every `M`, every uncertainty vector `ξ`
and every `i < N`, the grid loop gives `x[i] = i/(N-1)` and the field loop gives
`k[i] = 1 + Σ_{j=1..M} (σ/(j²π²))·cos(2πj·x[i])·ξ[j-1]` with `σ = 1`; the macro `PI`,
expanded textually as `4.0*atan(1.0)`, denotes `π` at each of its uses. -/
theorem C5_diffusivity_formula (N M : Nat) (xi : Nat → ℝ) (hN : 2 ≤ N) :
    ∃ x kc, x_points N = some x ∧
      k_coefficients Real.cos (Real.arctan 1) N M xi x = some kc ∧
      (sigma : ℝ) = 1 ∧
      ∀ i, i < N → x i = (i : ℝ) / ((N : ℝ) - 1) ∧
        kc i = 1 + ∑ j in Finset.Icc (1 : Nat) M,
          (sigma / ((j : ℝ) ^ 2 * Real.pi ^ 2)) * Real.cos (2 * Real.pi * (j : ℝ) * x i)
            * xi (j - 1) := by
  refine ⟨_, _, x_points_eq N hN,
    k_coefficients_eq _ _ N M xi _ (Or.inr arctan_one_ne_zero), rfl, ?_⟩
  intro i hi
  constructor
  · rw [grid_apply N i hi, Nat.cast_sub (by omega)]
    simp [domain_length, div_eq_mul_inv]
  · simp only [karray, hi, if_true]
    exact kfield_real M xi _

/-- Witness of C5: four grid points and two uncertainties. -/
theorem C5_diffusivity_formula_witness :
    ∃ x kc, x_points 4 = some x ∧
      k_coefficients Real.cos (Real.arctan 1) 4 2 (fun j => (j : ℝ) + 1) x = some kc ∧
      (sigma : ℝ) = 1 ∧
      ∀ i, i < 4 → x i = (i : ℝ) / (((4 : Nat) : ℝ) - 1) ∧
        kc i = 1 + ∑ j in Finset.Icc (1 : Nat) 2,
          (sigma / ((j : ℝ) ^ 2 * Real.pi ^ 2)) * Real.cos (2 * Real.pi * (j : ℝ) * x i)
            * (((j - 1 : Nat) : ℝ) + 1) :=
  C5_diffusivity_formula 4 2 (fun j => (j : ℝ) + 1) (by decide)

/-- C6 (no uncertainty, constant field): with `num_uncertainties = 0` the field loop
succeeds for every grid size `N`, whatever the grid array and the uncertainty vector
hold, and `k_coefficients[i] = 1` for every `i < N`. -/
theorem C6_constant_field {α : Type} [Field α] [DecidableEq α] (cosf : α → α) (atan1 : α)
    (N : Nat) (xi x : Nat → α) :
    ∃ kc, k_coefficients cosf atan1 N 0 xi x = some kc ∧ ∀ i, i < N → kc i = 1 := by
  refine ⟨fun j => if j < N then 1 else 0, ?_, fun i hi => by simp [hi]⟩
  unfold k_coefficients
  apply forUp_fill
  intro i _ kc
  simp [forUp]

/-- C7 (boundary-row override): for `N ≥ 3` and every uncertainty vector, the system
that `diffusion_1d` and `ellip_1d` hand to the solver exists and has row `0` equal to
`(a, b, c, d) = (0, 1, 0, u_0)` and row `N-1` equal to `(0, 1, 0, u_1)`, with
`u_0 = u_1 = 0`. -/
theorem C7_boundary_rows (N M : Nat) (xi : Nat → ℝ) (hN : 3 ≤ N) :
    (∃ s, diffusion_system Real.cos (Real.arctan 1) N M xi = some s ∧
      (s.a 0 = 0 ∧ s.b 0 = 1 ∧ s.c 0 = 0 ∧ s.d 0 = u_0) ∧
      (s.a (N - 1) = 0 ∧ s.b (N - 1) = 1 ∧ s.c (N - 1) = 0 ∧ s.d (N - 1) = u_1)) ∧
    (∃ s, ellip_system Real.cos (Real.arctan 1) N M xi = some s ∧
      (s.a 0 = 0 ∧ s.b 0 = 1 ∧ s.c 0 = 0 ∧ s.d 0 = u_0) ∧
      (s.a (N - 1) = 0 ∧ s.b (N - 1) = 1 ∧ s.c (N - 1) = 0 ∧ s.d (N - 1) = u_1)) ∧
    (u_0 : ℝ) = 0 ∧ (u_1 : ℝ) = 0 := by
  have h2 : 2 ≤ N := by omega
  refine ⟨⟨_, diffusion_system_eq _ _ N M xi h2 (Or.inr arctan_one_ne_zero), ?_, ?_⟩,
    ⟨_, ellip_system_eq _ _ N M xi h2 (Or.inr arctan_one_ne_zero), ?_, ?_⟩, rfl, rfl⟩
  · simpa [u_0] using set_boundary_zero N _
  · simpa [u_1] using set_boundary_last N _
  · simpa [u_0] using set_boundary_zero N _
  · simpa [u_1] using set_boundary_last N _

/-- Witness of C7: three grid points and one uncertainty. -/
theorem C7_boundary_rows_witness :
    (∃ s, diffusion_system Real.cos (Real.arctan 1) 3 1 (fun _ => (1 : ℝ)) = some s ∧
      (s.a 0 = 0 ∧ s.b 0 = 1 ∧ s.c 0 = 0 ∧ s.d 0 = u_0) ∧
      (s.a (3 - 1) = 0 ∧ s.b (3 - 1) = 1 ∧ s.c (3 - 1) = 0 ∧ s.d (3 - 1) = u_1)) ∧
    (∃ s, ellip_system Real.cos (Real.arctan 1) 3 1 (fun _ => (1 : ℝ)) = some s ∧
      (s.a 0 = 0 ∧ s.b 0 = 1 ∧ s.c 0 = 0 ∧ s.d 0 = u_0) ∧
      (s.a (3 - 1) = 0 ∧ s.b (3 - 1) = 1 ∧ s.c (3 - 1) = 0 ∧ s.d (3 - 1) = u_1)) ∧
    (u_0 : ℝ) = 0 ∧ (u_1 : ℝ) = 0 :=
  C7_boundary_rows 3 1 (fun _ => 1) (by decide)

/-- C8 (symmetry for constant diffusivity): for `N ≥ 3` and `num_uncertainties = 0`
the solution vectors of `diffusion_1d` and of `ellip_1d` exist and are symmetric about
the midpoint: `u[i] = u[N-1-i]` for every `i < N`. -/
theorem C8_symmetry_constant {α : Type} [LinearOrderedField α] (cosf : α → α) (atan1 : α)
    (N : Nat) (xi : Nat → α)
    (hN : 3 ≤ N) :
    (∃ u, diffusion_solution cosf atan1 N 0 xi = some u ∧
      ∀ i, i < N → u i = u (N - 1 - i)) ∧
    (∃ u, ellip_solution cosf atan1 N 0 xi = some u ∧
      ∀ i, i < N → u i = u (N - 1 - i)) := by
  have hH : (((N - 1 : Nat) : α)) ≠ 0 := Nat.cast_ne_zero.mpr (by omega)
  have hsym : ∀ i, i < N → ∀ c : α,
      c * ((i : α) / ((N - 1 : Nat) : α)) * (1 - (i : α) / ((N - 1 : Nat) : α))
        = c * (((N - 1 - i : Nat) : α) / ((N - 1 : Nat) : α))
            * (1 - ((N - 1 - i : Nat) : α) / ((N - 1 : Nat) : α)) := by
    intro i hi c
    rw [Nat.cast_sub (by omega : i ≤ N - 1)]
    generalize (((N - 1 : Nat) : α)) = H at hH ⊢
    field_simp
    ring
  constructor
  · obtain ⟨u, hu, hval⟩ := diffusion_solution_zero cosf atan1 N xi (by omega)
    refine ⟨u, hu, fun i hi => ?_⟩
    rw [hval i hi, hval (N - 1 - i) (by omega)]
    exact hsym i hi 5
  · obtain ⟨u, hu, hval⟩ := ellip_solution_zero cosf atan1 N xi (by omega)
    refine ⟨u, hu, fun i hi => ?_⟩
    rw [hval i hi, hval (N - 1 - i) (by omega)]
    exact hsym i hi (1 / 2)

/-- Witness of C8: five grid points over `ℚ`. -/
theorem C8_symmetry_constant_witness :
    (∃ u, diffusion_solution (fun x : ℚ => x) 0 5 0 (fun _ => 0) = some u ∧
      ∀ i, i < 5 → u i = u (5 - 1 - i)) ∧
    (∃ u, ellip_solution (fun x : ℚ => x) 0 5 0 (fun _ => 0) = some u ∧
      ∀ i, i < 5 → u i = u (5 - 1 - i)) :=
  C8_symmetry_constant (fun x : ℚ => x) 0 5 (fun _ => 0) (by decide)

/-- C9 (equivalence of the two normalisation conventions): for `N ≥ 3`, a strictly
increasing grid `x` and any diffusivity and forcing arrays `k`, `f`, both assemblies
succeed; if no divisor of the forward sweep of the `diffusion_1d` system is zero then
the `diffusion_1d` system (control-volume width folded into `d[i]`) and the `ellip_1d`
system (`a[i]`, `b[i]`, `c[i]` divided by the width, `d[i] = f[i]`) have the same
solution vector on the grid, under the in-place solver as well as under the
`c_star`/`d_star` solver. -/
theorem C9_normalisation_equivalence {α : Type} [LinearOrderedField α] (N : Nat)
    (x k f : Nat → α) (hN : 3 ≤ N)
    (hx : ∀ i, i + 1 < N → x i < x (i + 1))
    (hden : ∀ s, assemble_diffusion N x k f = some s → ∀ i, i < N → denom s i ≠ 0) :
    ∃ sD sE uD uE vD vE,
      assemble_diffusion N x k f = some sD ∧ assemble_ellip N x k f = some sE ∧
      tdma_inplace N sD = some uD ∧ tdma_star N sE = some uE ∧
      tdma_star N sD = some vD ∧ tdma_inplace N sE = some vE ∧
      ∀ i, i < N → uD i = uE i ∧ vD i = uD i ∧ vE i = uD i := by
  have h2 : 2 ≤ N := by omega
  have hstep : ∀ i, i + 1 < N → x (i + 1) - x i ≠ 0 :=
    fun i hi => (sub_pos.mpr (hx i hi)).ne'
  have hwidth : ∀ i, 1 ≤ i → i + 1 < N → 0.5 * (x (i + 1) - x (i - 1)) ≠ 0 := by
    intro i hi1 hi
    have h1 : x (i - 1) < x i := by
      have := hx (i - 1) (by omega)
      rwa [Nat.sub_add_cancel hi1] at this
    have h3 : x (i - 1) < x (i + 1) := lt_trans h1 (hx i hi)
    have h5 : (0 : α) < 0.5 := by norm_num
    exact (mul_pos h5 (sub_pos.mpr h3)).ne'
  have hD := assemble_diffusion_eq N x k f h2 hstep
  have hE := assemble_ellip_eq N x k f h2 hstep hwidth
  have hdD := hden _ hD
  have hrel := scaled_recurrences (set_boundary N (interior_diffusion N x k f))
    (set_boundary N (interior_ellip N x k f))
    (fun i => if 1 ≤ i ∧ i + 1 < N then 0.5 * (x (i + 1) - x (i - 1)) else 1) (N - 1)
    (fun i _ => by
      by_cases hc : 1 ≤ i ∧ i + 1 < N
      · simp only [hc, and_self, if_true]; exact hwidth i hc.1 hc.2
      · simp only [hc, if_false]; exact one_ne_zero)
    (fun i hi => by
      by_cases hc : 1 ≤ i ∧ i + 1 < N
      · rw [(set_boundary_interior N i _ hc.1 hc.2).1, (set_boundary_interior N i _ hc.1 hc.2).1]
        simp only [interior_ellip, interior_diffusion, hc, and_self, if_true]
      · have hi0 : i = 0 ∨ i = N - 1 := by omega
        rcases hi0 with rfl | rfl
        · simp only [hc, if_false, (set_boundary_zero N _).1, div_one]
        · simp only [hc, if_false, (set_boundary_last N _).1, div_one])
    (fun i hi => by
      by_cases hc : 1 ≤ i ∧ i + 1 < N
      · rw [(set_boundary_interior N i _ hc.1 hc.2).2.1,
          (set_boundary_interior N i _ hc.1 hc.2).2.1]
        simp only [interior_ellip, interior_diffusion, hc, and_self, if_true]
      · have hi0 : i = 0 ∨ i = N - 1 := by omega
        rcases hi0 with rfl | rfl
        · simp only [hc, if_false, (set_boundary_zero N _).2.1, div_one]
        · simp only [hc, if_false, (set_boundary_last N _).2.1, div_one])
    (fun i hi => by
      by_cases hc : 1 ≤ i ∧ i + 1 < N
      · rw [(set_boundary_interior N i _ hc.1 hc.2).2.2.1,
          (set_boundary_interior N i _ hc.1 hc.2).2.2.1]
        simp only [interior_ellip, interior_diffusion, hc, and_self, if_true]
      · have hi0 : i = 0 ∨ i = N - 1 := by omega
        rcases hi0 with rfl | rfl
        · simp only [hc, if_false, (set_boundary_zero N _).2.2.1, div_one]
        · simp only [hc, if_false, (set_boundary_last N _).2.2.1, div_one])
    (fun i hi => by
      by_cases hc : 1 ≤ i ∧ i + 1 < N
      · rw [(set_boundary_interior N i _ hc.1 hc.2).2.2.2,
          (set_boundary_interior N i _ hc.1 hc.2).2.2.2]
        simp only [interior_ellip, interior_diffusion, hc, and_self, if_true]
        rw [mul_assoc, mul_div_assoc, div_self (hwidth i hc.1 hc.2), mul_one]
      · have hi0 : i = 0 ∨ i = N - 1 := by omega
        rcases hi0 with rfl | rfl
        · simp only [hc, if_false, (set_boundary_zero N _).2.2.2, div_one]
        · simp only [hc, if_false, (set_boundary_last N _).2.2.2, div_one])
  have hdE : ∀ i, i < N → denom (set_boundary N (interior_ellip N x k f)) i ≠ 0 := by
    intro i hi
    rw [(hrel i (by omega)).2.2]
    apply div_ne_zero (hdD i hi)
    by_cases hc : 1 ≤ i ∧ i + 1 < N
    · simp only [hc, and_self, if_true]; exact hwidth i hc.1 hc.2
    · simp only [hc, if_false]; exact one_ne_zero
  have hth := thomas_congr (set_boundary N (interior_diffusion N x k f))
    (set_boundary N (interior_ellip N x k f)) (N - 1)
    (fun i hi => ⟨(hrel i hi).1, (hrel i hi).2.1⟩)
  refine ⟨_, _, _, _, _, _, hD, hE, tdma_inplace_eq N _ h2 hdD, tdma_star_eq N _ h2 hdE,
    tdma_star_eq N _ h2 hdD, tdma_inplace_eq N _ h2 hdE, ?_⟩
  intro i hi
  simp only [hi, if_true]
  exact ⟨(hth i (by omega)).symm, trivial, hth i (by omega)⟩

/-- Witness of C9: the grid `x[i] = i`, diffusivity `1` and forcing `1` on three
points over `ℚ`. -/
theorem C9_normalisation_equivalence_witness :
    ∃ sD sE uD uE vD vE,
      assemble_diffusion 3 (fun i => (i : ℚ)) (fun _ => 1) (fun _ => 1) = some sD ∧
      assemble_ellip 3 (fun i => (i : ℚ)) (fun _ => 1) (fun _ => 1) = some sE ∧
      tdma_inplace 3 sD = some uD ∧ tdma_star 3 sE = some uE ∧
      tdma_star 3 sD = some vD ∧ tdma_inplace 3 sE = some vE ∧
      ∀ i, i < 3 → uD i = uE i ∧ vD i = uD i ∧ vE i = uD i :=
  C9_normalisation_equivalence 3 (fun i => (i : ℚ)) (fun _ => 1) (fun _ => 1) (by decide)
    (fun i _ => by push_cast; linarith)
    (fun s hs i hi => by
      rw [assemble_diffusion_eq 3 _ _ _ (by decide)
        (fun j _ => by push_cast; norm_num)] at hs
      cases hs
      interval_cases i <;>
        norm_num [denom, cprime, set_boundary, interior_diffusion, Function.update])

/-- C10 (reduction mode of `ellip_1d`): for `N ≥ 3` and every uncertainty vector for
which no divisor of the forward sweep is zero, `ellip_1d` returns `Σ_{i<N} u[i]·h`
with `h = 1/(N-1)`, and this value is the trapezoidal sum
`Σ_{i<N-1} h·(u[i] + u[i+1])/2` of the solution over the grid. -/
theorem C10_integral_reduction (N M : Nat) (xi : Nat → ℝ) (hN : 3 ≤ N)
    (hE : ∀ s, ellip_system Real.cos (Real.arctan 1) N M xi = some s →
      ∀ i, i < N → denom s i ≠ 0) :
    ∃ u, ellip_solution Real.cos (Real.arctan 1) N M xi = some u ∧
      ellip_1d Real.cos (Real.arctan 1) N M xi
        = some (∑ i in Finset.range N, u i * (1 / ((N : ℝ) - 1))) ∧
      ∑ i in Finset.range N, u i * (1 / ((N : ℝ) - 1))
        = ∑ i in Finset.range (N - 1), (1 / ((N : ℝ) - 1)) * (u i + u (i + 1)) / 2 := by
  have h2 : 2 ≤ N := by omega
  have ha := Or.inr (a := M = 0) arctan_one_ne_zero
  have hdE := hE _ (ellip_system_closed _ _ N M xi h2 ha)
  have hsol := ellip_solution_eq _ _ N M xi h2 ha hdE
  have hcast : (((N - 1 : Nat) : ℝ)) = (N : ℝ) - 1 := by
    rw [Nat.cast_sub (by omega)]; simp
  refine ⟨_, hsol, ?_, ?_⟩
  · unfold ellip_1d
    rw [hsol, grid_spacing_eq N h2]
    simp only [bind, pure, Option.bind, sum_loop_eq, domain_length, hcast]
  · obtain ⟨_, hb0, hc0, hd0⟩ := set_boundary_zero N (interior_ellip N (grid N)
      (karray Real.cos (Real.arctan 1) N M xi (grid N)) (forcing N f_ellip))
    obtain ⟨hal, _, _, hdl⟩ := set_boundary_last N (interior_ellip N (grid N)
      (karray Real.cos (Real.arctan 1) N M xi (grid N)) (forcing N f_ellip))
    obtain ⟨t0, tl⟩ := thomas_boundary N _ h2 hb0 hc0 hd0 hal hdl
    apply rectangle_eq_trapezoid N _ _ (by omega)
    · have h0 : 0 < N := by omega
      simp only [h0, if_true]
      exact t0
    · have hl : N - 1 < N := by omega
      simp only [hl, if_true]
      exact tl

/-- Witness of C10: four grid points, no uncertainty. -/
theorem C10_integral_reduction_witness :
    ∃ u, ellip_solution Real.cos (Real.arctan 1) 4 0 (fun _ => (0 : ℝ)) = some u ∧
      ellip_1d Real.cos (Real.arctan 1) 4 0 (fun _ => (0 : ℝ))
        = some (∑ i in Finset.range 4, u i * (1 / (((4 : Nat) : ℝ) - 1))) ∧
      ∑ i in Finset.range 4, u i * (1 / (((4 : Nat) : ℝ) - 1))
        = ∑ i in Finset.range (4 - 1), (1 / (((4 : Nat) : ℝ) - 1)) * (u i + u (i + 1)) / 2 :=
  C10_integral_reduction 4 0 (fun _ => 0) (by decide)
    (fun s hs => by
      rw [ellip_system_eq _ _ 4 0 _ (by decide) (Or.inl rfl)] at hs
      cases hs
      exact ellip_denom_ne_zero 4 _ _ (by decide)
        (fun j hj => by rw [karray_zero _ _ _ _ _ _ hj]; exact one_pos))

/-- C11 (grid invariant): for `N ≥ 2` the grid loop of `diffusion_1d` and `ellip_1d`
produces a grid with `x[0] = 0`, `x[N-1] = L`, `x[i+1] - x[i] = h = L/(N-1)` for every
`i < N-1`, and `x` strictly increasing, where `L = domain_length = 1`. -/
theorem C11_grid_invariant {α : Type} [LinearOrderedField α] (N : Nat) (hN : 2 ≤ N) :
    ∃ x : Nat → α, x_points N = some x ∧
      x 0 = 0 ∧ x (N - 1) = domain_length ∧
      (∀ i, i + 1 < N → x (i + 1) - x i = domain_length / ((N : α) - 1)) ∧
      (∀ i j, i < j → j < N → x i < x j) ∧
      (domain_length : α) = 1 := by
  have hcast : (((N - 1 : Nat) : α)) = (N : α) - 1 := by
    rw [Nat.cast_sub (by omega)]; simp
  have hH : (((N - 1 : Nat) : α)) ≠ 0 := Nat.cast_ne_zero.mpr (by omega)
  have hh := spacing_pos (α := α) N hN
  refine ⟨grid N, x_points_eq N hN, ?_, ?_, ?_, ?_, rfl⟩
  · rw [grid_apply N 0 (by omega)]
    simp
  · rw [grid_apply N (N - 1) (by omega), mul_div_assoc', mul_comm, mul_div_assoc,
      div_self hH, mul_one]
  · intro i hi
    rw [grid_step N i hi, hcast]
  · intro i j hij hj
    rw [grid_apply N i (by omega), grid_apply N j hj]
    have hc : (i : α) < (j : α) := by exact_mod_cast hij
    exact mul_lt_mul_of_pos_right hc hh

/-- Witness of C11: five grid points over `ℚ`. -/
theorem C11_grid_invariant_witness :
    ∃ x : Nat → ℚ, x_points 5 = some x ∧
      x 0 = 0 ∧ x (5 - 1) = domain_length ∧
      (∀ i, i + 1 < 5 → x (i + 1) - x i = domain_length / (((5 : Nat) : ℚ) - 1)) ∧
      (∀ i j, i < j → j < 5 → x i < x j) ∧
      (domain_length : ℚ) = 1 :=
  C11_grid_invariant 5 (by decide)

/-- Counterexample to C12 as stated: with `num_grid_points = 2 < 3` (and no
uncertainty) no error is raised; `diffusion_1d` and `ellip_1d` run to the end and
return the number `0`. -/
theorem C12_counterexample :
    diffusion_1d Real.cos (Real.arctan 1) 2 0 (fun _ => (0 : ℝ)) = some 0 ∧
    ellip_1d Real.cos (Real.arctan 1) 2 0 (fun _ => (0 : ℝ)) = some 0 :=
  ⟨diffusion_1d_two _ _ 0 _ (Or.inl rfl), ellip_1d_two _ _ 0 _ (Or.inl rfl)⟩

/-- C12, amended (the smallest accepted grid): the source has no size check and no
error value, and a grid size below `3` is not rejected.  With `num_grid_points = 2`
both rows of the system are boundary rows; for every number of uncertainties and every
uncertainty vector the solution vector of `diffusion_1d`, and likewise of `ellip_1d`,
is `(0, 0)` and the function returns the number `0`. -/
theorem C12_two_points_accepted (M : Nat) (xi : Nat → ℝ) :
    (∃ u, diffusion_solution Real.cos (Real.arctan 1) 2 M xi = some u ∧
      u 0 = 0 ∧ u 1 = 0) ∧
    diffusion_1d Real.cos (Real.arctan 1) 2 M xi = some 0 ∧
    (∃ u, ellip_solution Real.cos (Real.arctan 1) 2 M xi = some u ∧
      u 0 = 0 ∧ u 1 = 0) ∧
    ellip_1d Real.cos (Real.arctan 1) 2 M xi = some 0 := by
  have ha := Or.inr (a := M = 0) arctan_one_ne_zero
  have h0 : (0 : Nat) < 2 := by decide
  have h1 : (1 : Nat) < 2 := by decide
  have e1 : (2 : Nat) - 1 = 1 := rfl
  refine ⟨?_, diffusion_1d_two _ _ M xi ha, ?_, ellip_1d_two _ _ M xi ha⟩
  · have hd := denom_two_points (interior_diffusion 2 (grid 2)
      (karray Real.cos (Real.arctan 1) 2 M xi (grid 2)) (forcing 2 (f_diffusion : ℝ)))
    obtain ⟨_, hb0, hc0, hd0⟩ := set_boundary_zero 2 (interior_diffusion 2 (grid 2)
      (karray Real.cos (Real.arctan 1) 2 M xi (grid 2)) (forcing 2 (f_diffusion : ℝ)))
    obtain ⟨hal, _, _, hdl⟩ := set_boundary_last 2 (interior_diffusion 2 (grid 2)
      (karray Real.cos (Real.arctan 1) 2 M xi (grid 2)) (forcing 2 (f_diffusion : ℝ)))
    have hb := thomas_boundary 2 _ (le_refl 2) hb0 hc0 hd0 hal hdl
    rw [e1] at hb
    refine ⟨_, diffusion_solution_eq _ _ 2 M xi (le_refl 2) ha hd, ?_, ?_⟩
    · simp only [h0, if_true, e1]
      exact hb.1
    · simp only [h1, if_true, e1]
      exact hb.2
  · have hd := denom_two_points (interior_ellip 2 (grid 2)
      (karray Real.cos (Real.arctan 1) 2 M xi (grid 2)) (forcing 2 (f_ellip : ℝ)))
    obtain ⟨_, hb0, hc0, hd0⟩ := set_boundary_zero 2 (interior_ellip 2 (grid 2)
      (karray Real.cos (Real.arctan 1) 2 M xi (grid 2)) (forcing 2 (f_ellip : ℝ)))
    obtain ⟨hal, _, _, hdl⟩ := set_boundary_last 2 (interior_ellip 2 (grid 2)
      (karray Real.cos (Real.arctan 1) 2 M xi (grid 2)) (forcing 2 (f_ellip : ℝ)))
    have hb := thomas_boundary 2 _ (le_refl 2) hb0 hc0 hd0 hal hdl
    rw [e1] at hb
    refine ⟨_, ellip_solution_eq _ _ 2 M xi (le_refl 2) ha hd, ?_, ?_⟩
    · simp only [h0, if_true, e1]
      exact hb.1
    · simp only [h1, if_true, e1]
      exact hb.2

/-- C14 (interior discretisation of `diffusion_1d`): for `N ≥ 3` and every interior
index `1 ≤ i ≤ N-2` the assembled coefficients are
`a[i] = 0.5·(k[i]+k[i-1])/(x[i]-x[i-1])`, `c[i] = 0.5·(k[i+1]+k[i])/(x[i+1]-x[i])`,
`b[i] = -(a[i] + c[i])` and `d[i] = f[i]·0.5·(x[i+1]-x[i-1])` with `f[i] = -10`, where
`x`, `k` and `f` are the arrays of the grid, field and forcing loops. -/
theorem C14_interior_discretisation (N M : Nat) (xi : Nat → ℝ) (hN : 3 ≤ N) :
    ∃ x k s, x_points N = some x ∧
      k_coefficients Real.cos (Real.arctan 1) N M xi x = some k ∧
      diffusion_system Real.cos (Real.arctan 1) N M xi = some s ∧
      ∀ i, 1 ≤ i → i + 2 ≤ N →
        s.a i = 0.5 * (k i + k (i - 1)) / (x i - x (i - 1)) ∧
        s.c i = 0.5 * (k (i + 1) + k i) / (x (i + 1) - x i) ∧
        s.b i = -(s.a i + s.c i) ∧
        s.d i = f_terms N f_diffusion i * 0.5 * (x (i + 1) - x (i - 1)) ∧
        (f_terms N f_diffusion i : ℝ) = -10 := by
  have h2 : 2 ≤ N := by omega
  have ha := Or.inr (a := M = 0) arctan_one_ne_zero
  refine ⟨_, _, _, x_points_eq N h2, k_coefficients_eq _ _ N M xi _ ha,
    diffusion_system_eq _ _ N M xi h2 ha, ?_⟩
  intro i hi1 hi2
  have hi : i + 1 < N := by omega
  have hc : 1 ≤ i ∧ i + 1 < N := ⟨hi1, hi⟩
  obtain ⟨ea, eb, ec, ed⟩ := set_boundary_interior N i (interior_diffusion N (grid N)
    (karray Real.cos (Real.arctan 1) N M xi (grid N)) (forcing N f_diffusion)) hi1 hi
  rw [ea, eb, ec, ed, f_terms_eq]
  simp only [interior_diffusion, hc, and_self, if_true]
  refine ⟨trivial, trivial, ?_, trivial, ?_⟩
  · ring
  · rw [forcing_apply N i _ (by omega)]
    rfl

/-- Witness of C14: four grid points and one uncertainty. -/
theorem C14_interior_discretisation_witness :
    ∃ x k s, x_points 4 = some x ∧
      k_coefficients Real.cos (Real.arctan 1) 4 1 (fun _ => (1 : ℝ)) x = some k ∧
      diffusion_system Real.cos (Real.arctan 1) 4 1 (fun _ => (1 : ℝ)) = some s ∧
      ∀ i, 1 ≤ i → i + 2 ≤ 4 →
        s.a i = 0.5 * (k i + k (i - 1)) / (x i - x (i - 1)) ∧
        s.c i = 0.5 * (k (i + 1) + k i) / (x (i + 1) - x i) ∧
        s.b i = -(s.a i + s.c i) ∧
        s.d i = f_terms 4 f_diffusion i * 0.5 * (x (i + 1) - x (i - 1)) ∧
        (f_terms 4 f_diffusion i : ℝ) = -10 :=
  C14_interior_discretisation 4 1 (fun _ => 1) (by decide)

/-- C15 (no division by zero for the well-posed problem): for `N ≥ 3` and every
uncertainty vector whose diffusivity array is positive on the grid, `b[0]` and every
divisor `b[i] - a[i]·c'[i-1]`, `1 ≤ i ≤ N-1`, of the forward sweep is non-zero in the
system of `diffusion_1d` and in the system of `ellip_1d`, and both functions return a
number. -/
theorem C15_no_division_by_zero (N M : Nat) (xi : Nat → ℝ) (hN : 3 ≤ N)
    (x kc : Nat → ℝ) (hx : x_points N = some x)
    (hk : k_coefficients Real.cos (Real.arctan 1) N M xi x = some kc)
    (hpos : ∀ i, i < N → 0 < kc i) :
    (∃ s, diffusion_system Real.cos (Real.arctan 1) N M xi = some s ∧ s.b 0 ≠ 0 ∧
      ∀ i, 1 ≤ i → i < N → s.b i - s.a i * cprime s (i - 1) ≠ 0) ∧
    (∃ s, ellip_system Real.cos (Real.arctan 1) N M xi = some s ∧ s.b 0 ≠ 0 ∧
      ∀ i, 1 ≤ i → i < N → s.b i - s.a i * cprime s (i - 1) ≠ 0) ∧
    (∃ v, diffusion_1d Real.cos (Real.arctan 1) N M xi = some v) ∧
    (∃ v, ellip_1d Real.cos (Real.arctan 1) N M xi = some v) := by
  have h2 : 2 ≤ N := by omega
  have ha := Or.inr (a := M = 0) arctan_one_ne_zero
  rw [x_points_eq N h2] at hx
  cases hx
  rw [k_coefficients_eq _ _ N M xi _ ha] at hk
  cases hk
  have hdD := diffusion_denom_ne_zero N _ (forcing N (f_diffusion : ℝ)) h2 hpos
  have hdE := ellip_denom_ne_zero N _ (forcing N (f_ellip : ℝ)) h2 hpos
  refine ⟨⟨_, diffusion_system_eq _ _ N M xi h2 ha, hdD 0 (by omega), ?_⟩,
    ⟨_, ellip_system_eq _ _ N M xi h2 ha, hdE 0 (by omega), ?_⟩, ?_, ?_⟩
  · intro i hi1 hi
    obtain ⟨j, rfl⟩ : ∃ j, i = j + 1 := ⟨i - 1, by omega⟩
    exact hdD (j + 1) hi
  · intro i hi1 hi
    obtain ⟨j, rfl⟩ : ∃ j, i = j + 1 := ⟨i - 1, by omega⟩
    exact hdE (j + 1) hi
  · rw [diffusion_1d, diffusion_solution_eq _ _ N M xi h2 ha hdD, Option.map_some']
    exact ⟨_, rfl⟩
  · unfold ellip_1d
    rw [ellip_solution_eq _ _ N M xi h2 ha hdE, grid_spacing_eq N h2]
    exact ⟨_, rfl⟩

/-- Witness of C15: four grid points without uncertainty, where the diffusivity is `1`. -/
theorem C15_no_division_by_zero_witness :
    (∃ s, diffusion_system Real.cos (Real.arctan 1) 4 0 (fun _ => (0 : ℝ)) = some s ∧
      s.b 0 ≠ 0 ∧ ∀ i, 1 ≤ i → i < 4 → s.b i - s.a i * cprime s (i - 1) ≠ 0) ∧
    (∃ s, ellip_system Real.cos (Real.arctan 1) 4 0 (fun _ => (0 : ℝ)) = some s ∧
      s.b 0 ≠ 0 ∧ ∀ i, 1 ≤ i → i < 4 → s.b i - s.a i * cprime s (i - 1) ≠ 0) ∧
    (∃ v, diffusion_1d Real.cos (Real.arctan 1) 4 0 (fun _ => (0 : ℝ)) = some v) ∧
    (∃ v, ellip_1d Real.cos (Real.arctan 1) 4 0 (fun _ => (0 : ℝ)) = some v) :=
  C15_no_division_by_zero 4 0 (fun _ => 0) (by decide) (grid 4)
    (karray Real.cos (Real.arctan 1) 4 0 (fun _ => 0) (grid 4))
    (x_points_eq 4 (by decide))
    (k_coefficients_eq _ _ 4 0 _ _ (Or.inl rfl))
    (fun i hi => by rw [karray_zero _ _ _ _ _ _ hi]; exact one_pos)

/-- C16 (nodal exactness with no uncertainty): for `N ≥ 3` and `num_uncertainties = 0`
the solution vector of `diffusion_1d` exists and coincides with the analytic solution
at every grid point: `u[i] = 5·x[i]·(1 - x[i])` with `x[i] = i/(N-1)`, for `i < N`. -/
theorem C16_nodal_exactness {α : Type} [LinearOrderedField α] (cosf : α → α) (atan1 : α)
    (N : Nat) (xi : Nat → α) (hN : 3 ≤ N) :
    ∃ x u, x_points N = some x ∧ diffusion_solution cosf atan1 N 0 xi = some u ∧
      ∀ i, i < N → x i = (i : α) / ((N : α) - 1) ∧ u i = 5 * x i * (1 - x i) := by
  have h2 : 2 ≤ N := by omega
  have hcast : (((N - 1 : Nat) : α)) = (N : α) - 1 := by
    rw [Nat.cast_sub (by omega)]; simp
  obtain ⟨u, hu, hval⟩ := diffusion_solution_zero cosf atan1 N xi h2
  refine ⟨grid N, u, x_points_eq N h2, hu, fun i hi => ?_⟩
  have hx : grid (α := α) N i = (i : α) / ((N : α) - 1) := by
    rw [grid_apply N i hi, hcast]
    simp [domain_length, div_eq_mul_inv]
  rw [hx, hval i hi, hcast]
  exact ⟨rfl, rfl⟩

/-- Witness of C16: five grid points over `ℚ`. -/
theorem C16_nodal_exactness_witness :
    ∃ x u, x_points 5 = some x ∧
      diffusion_solution (fun t : ℚ => t) 0 5 0 (fun _ => 0) = some u ∧
      ∀ i, i < 5 → x i = (i : ℚ) / (((5 : Nat) : ℚ) - 1) ∧ u i = 5 * x i * (1 - x i) :=
  C16_nodal_exactness (fun t : ℚ => t) 0 5 (fun _ => 0) (by decide)

/-- C17 (closed form of the integral output with no uncertainty): for `N ≥ 3` and
`num_uncertainties = 0`, `ellip_1d` returns `(1 - h²)/12` with `h = 1/(N-1)`. -/
theorem C17_integral_closed_form {α : Type} [LinearOrderedField α] (cosf : α → α)
    (atan1 : α) (N : Nat) (xi : Nat → α) (hN : 3 ≤ N) :
    ellip_1d cosf atan1 N 0 xi = some ((1 - (1 / ((N : α) - 1)) ^ 2) / 12) := by
  have h2 : 2 ≤ N := by omega
  have hcast : (((N - 1 : Nat) : α)) = (N : α) - 1 := by
    rw [Nat.cast_sub (by omega)]; simp
  have hN1 : (1 : α) < (N : α) := by exact_mod_cast (by omega : 1 < N)
  have hH : (N : α) - 1 ≠ 0 := by
    have : (0 : α) < (N : α) - 1 := by linarith
    exact this.ne'
  obtain ⟨u, hu, hval⟩ := ellip_solution_zero cosf atan1 N xi h2
  unfold ellip_1d
  rw [hu, grid_spacing_eq N h2]
  simp only [bind, pure, Option.bind, sum_loop_eq, domain_length, hcast]
  congr 1
  have hsum : ∑ i in Finset.range N, u i * (1 / ((N : α) - 1))
      = ∑ i in Finset.range N, (1 / 2) * ((i : α) * (1 / ((N : α) - 1)))
          * (1 - (i : α) * (1 / ((N : α) - 1))) * (1 / ((N : α) - 1)) := by
    apply Finset.sum_congr rfl
    intro i hi
    rw [hval i (Finset.mem_range.mp hi), hcast]
    simp only [div_eq_mul_inv, one_mul]
  rw [hsum, parabola_sum]
  field_simp
  ring

/-- Witness of C17: three grid points over `ℚ`, where the value is `1/16`. -/
theorem C17_integral_closed_form_witness :
    ellip_1d (fun t : ℚ => t) 0 3 0 (fun _ => 0) = some (1 / 16) := by
  rw [C17_integral_closed_form (fun t : ℚ => t) 0 3 (fun _ => 0) (by decide)]
  norm_num

/-- C18 (solution symmetry for every uncertainty vector): for `N ≥ 3`, every `M` and
every uncertainty vector, the diffusivity array satisfies `k[i] = k[N-1-i]` for
`i < N`; and whenever no divisor of the forward sweep is zero, the solution vector of
`diffusion_1d`, and likewise of `ellip_1d`, exists and satisfies `u[i] = u[N-1-i]` for
every `i < N`. -/
theorem C18_symmetry (N M : Nat) (xi : Nat → ℝ) (hN : 3 ≤ N) :
    (∃ x kc, x_points N = some x ∧
      k_coefficients Real.cos (Real.arctan 1) N M xi x = some kc ∧
      ∀ i, i < N → kc i = kc (N - 1 - i)) ∧
    ((∀ s, diffusion_system Real.cos (Real.arctan 1) N M xi = some s →
        ∀ i, i < N → denom s i ≠ 0) →
      ∃ u, diffusion_solution Real.cos (Real.arctan 1) N M xi = some u ∧
        ∀ i, i < N → u i = u (N - 1 - i)) ∧
    ((∀ s, ellip_system Real.cos (Real.arctan 1) N M xi = some s →
        ∀ i, i < N → denom s i ≠ 0) →
      ∃ u, ellip_solution Real.cos (Real.arctan 1) N M xi = some u ∧
        ∀ i, i < N → u i = u (N - 1 - i)) := by
  have h2 : 2 ≤ N := by omega
  have ha := Or.inr (a := M = 0) arctan_one_ne_zero
  have hk : ∀ i, i < N → karray Real.cos (Real.arctan 1) N M xi (grid N) i
      = karray Real.cos (Real.arctan 1) N M xi (grid N) (N - 1 - i) :=
    fun i hi => karray_reflect N M i xi h2 hi
  refine ⟨⟨_, _, x_points_eq N h2, k_coefficients_eq _ _ N M xi _ ha, hk⟩, ?_, ?_⟩
  · intro hD
    have hd := hD _ (diffusion_system_closed _ _ N M xi h2 ha)
    refine ⟨_, diffusion_solution_eq _ _ N M xi h2 ha hd, fun i hi => ?_⟩
    have hi2 : N - 1 - i < N := by omega
    obtain ⟨_, hb0, hc0, hd0⟩ := set_boundary_zero N (interior_diffusion N (grid N)
      (karray Real.cos (Real.arctan 1) N M xi (grid N)) (forcing N f_diffusion))
    obtain ⟨hal, hbl, _, hdl⟩ := set_boundary_last N (interior_diffusion N (grid N)
      (karray Real.cos (Real.arctan 1) N M xi (grid N)) (forcing N f_diffusion))
    simp only [hi, hi2, if_true]
    exact thomas_reflect N _ h2 hd hb0 hc0 hd0 hal hbl hdl
      (diffusion_rows_reflect N _ f_diffusion hk) i hi
  · intro hE
    have hd := hE _ (ellip_system_closed _ _ N M xi h2 ha)
    refine ⟨_, ellip_solution_eq _ _ N M xi h2 ha hd, fun i hi => ?_⟩
    have hi2 : N - 1 - i < N := by omega
    obtain ⟨_, hb0, hc0, hd0⟩ := set_boundary_zero N (interior_ellip N (grid N)
      (karray Real.cos (Real.arctan 1) N M xi (grid N)) (forcing N f_ellip))
    obtain ⟨hal, hbl, _, hdl⟩ := set_boundary_last N (interior_ellip N (grid N)
      (karray Real.cos (Real.arctan 1) N M xi (grid N)) (forcing N f_ellip))
    simp only [hi, hi2, if_true]
    exact thomas_reflect N _ h2 hd hb0 hc0 hd0 hal hbl hdl
      (ellip_rows_reflect N _ f_ellip hk) i hi

/-- Witness of C18: four grid points and the single uncertainty `ξ = (1)`. -/
theorem C18_symmetry_witness :
    (∃ x kc, x_points 4 = some x ∧
      k_coefficients Real.cos (Real.arctan 1) 4 1 (fun _ => (1 : ℝ)) x = some kc ∧
      ∀ i, i < 4 → kc i = kc (4 - 1 - i)) ∧
    (∃ u, diffusion_solution Real.cos (Real.arctan 1) 4 1 (fun _ => (1 : ℝ)) = some u ∧
      ∀ i, i < 4 → u i = u (4 - 1 - i)) ∧
    (∃ u, ellip_solution Real.cos (Real.arctan 1) 4 1 (fun _ => (1 : ℝ)) = some u ∧
      ∀ i, i < 4 → u i = u (4 - 1 - i)) :=
  ⟨(C18_symmetry 4 1 (fun _ => 1) (by decide)).1,
    (C18_symmetry 4 1 (fun _ => 1) (by decide)).2.1 (fun s hs => by
      rw [diffusion_system_closed _ _ 4 1 _ (by decide) (Or.inr arctan_one_ne_zero)] at hs
      cases hs
      exact denom_ne_zero_unit_mode.1),
    (C18_symmetry 4 1 (fun _ => 1) (by decide)).2.2 (fun s hs => by
      rw [ellip_system_closed _ _ 4 1 _ (by decide) (Or.inr arctan_one_ne_zero)] at hs
      cases hs
      exact denom_ne_zero_unit_mode.2)⟩

/-- C19 (the two solver implementations agree): for `N ≥ 2` and arrays `a`, `b`, `c`,
`d` with `b[0] ≠ 0` and non-zero forward-sweep divisors, the in-place TDMA of
`diffusion_1d` (overwriting `c` and `d`, dividing by the divisor) and the out-of-place
TDMA of `ellip_1d` (`c_star`, `d_star`, multiplying by the reciprocal `m`) both return
a solution vector, and the two vectors are equal on the grid. -/
theorem C19_solvers_agree {α : Type} [Field α] [DecidableEq α] (N : Nat)
    (a b c d : Nat → α) (hN : 2 ≤ N) (hb0 : b 0 ≠ 0)
    (hden : ∀ i, 1 ≤ i → i < N → b i - a i * cprime ⟨a, b, c, d⟩ (i - 1) ≠ 0) :
    ∃ u v, tdma_inplace N ⟨a, b, c, d⟩ = some u ∧ tdma_star N ⟨a, b, c, d⟩ = some v ∧
      ∀ i, i < N → u i = v i := by
  have hd := denom_ne_zero_of N ⟨a, b, c, d⟩ hb0 hden
  refine ⟨_, _, tdma_inplace_eq N _ hN hd, tdma_star_eq N _ hN hd, fun i hi => ?_⟩
  simp only [hi, if_true]

/-- Witness of C19: the `4 × 4` system with `a = c = 1`, `b = 3` and `d = (1, 2, 3, 4)`
over `ℚ`. -/
theorem C19_solvers_agree_witness :
    ∃ u v : Nat → ℚ,
      tdma_inplace 4 ⟨fun _ => 1, fun _ => 3, fun _ => 1, fun i => (i : ℚ) + 1⟩ = some u ∧
      tdma_star 4 ⟨fun _ => 1, fun _ => 3, fun _ => 1, fun i => (i : ℚ) + 1⟩ = some v ∧
      ∀ i, i < 4 → u i = v i :=
  C19_solvers_agree (α := ℚ) 4 (fun _ => 1) (fun _ => 3) (fun _ => 1)
    (fun i => (i : ℚ) + 1) (by decide) (by norm_num)
    (by
      intro i h1 h2
      interval_cases i <;> norm_num [cprime])

/-- C20 (bounded uncertainties keep the diffusivity positive): for `N ≥ 2`, every `M`
and every uncertainty vector with `|ξ[j]| ≤ 1` for all `j < M`, every coefficient
computed by the field loop satisfies `|k[i] - 1| < 1/6`, hence `5/6 < k[i] < 7/6`, for
`i < N`. -/
theorem C20_bounded_uncertainties (N M : Nat) (xi : Nat → ℝ) (hN : 2 ≤ N)
    (hxi : ∀ j, j < M → |xi j| ≤ 1) :
    ∃ x kc, x_points N = some x ∧
      k_coefficients Real.cos (Real.arctan 1) N M xi x = some kc ∧
      ∀ i, i < N → |kc i - 1| < 1 / 6 ∧ 5 / 6 < kc i ∧ kc i < 7 / 6 := by
  refine ⟨_, _, x_points_eq N hN,
    k_coefficients_eq _ _ N M xi _ (Or.inr arctan_one_ne_zero), ?_⟩
  intro i hi
  simp only [karray, hi, if_true]
  have hb := kfield_real_bound M xi (grid N i) hxi
  have h2 := abs_lt.mp hb
  refine ⟨hb, ?_, ?_⟩
  · linarith [h2.1]
  · linarith [h2.2]

/-- Witness of C20: four grid points and the three uncertainties `(1, -1, 1/2)`. -/
theorem C20_bounded_uncertainties_witness :
    ∃ x kc, x_points 4 = some x ∧
      k_coefficients Real.cos (Real.arctan 1) 4 3
        (fun j => if j = 0 then (1 : ℝ) else if j = 1 then -1 else 1 / 2) x = some kc ∧
      ∀ i, i < 4 → |kc i - 1| < 1 / 6 ∧ 5 / 6 < kc i ∧ kc i < 7 / 6 :=
  C20_bounded_uncertainties 4 3 _ (by decide)
    (fun j _ => by
      by_cases h0 : j = 0
      · simp [h0]
      · by_cases h1 : j = 1
        · simp [h1]
        · simp only [h0, h1, if_false]
          rw [abs_of_nonneg (by norm_num)]
          norm_num)

end Claims

end Mlmc
